import Mathlib

/-!
Verification of `cutgeneratingfunctionology/spam/basic_semialgebraic_linear_system.py`
(class `BasicSemialgebraicSet_polyhedral_linear_system`).

The store keeps three collections of linear polynomials over an ordered coefficient
field (here modelled by the rationals): equalities `p = 0`, strict inequalities
`p < 0` and non-strict inequalities `p <= 0`, over a polynomial ring with `n`
generators.  We embed:

* `init`                       : `__init__` (lines 72-121 of the source),
* `one_step_elimination`       : lines 123-193,
* `coordinate_projection`      : lines 195-213 (via `projLoop`),
* `add_polynomial_constraint`  : lines 248-273.

Polynomials are represented by their coefficient list together with the constant
term.  A polynomial handed to the constructor is either an element of the declared
polynomial ring (`InPoly.ring`, carrying also the list of its monomials of total
degree at least two, so that nonlinear inputs are representable) or an element of
the base ring, i.e. a constant whose Sage parent differs from the polynomial ring
(`InPoly.base`); the constant-evaluation code in `__init__` tests exactly this
parent distinction (`e.parent() != poly_ring`).

Python specifics that the claims depend on are modelled explicitly: the
infeasibility collapse assigns empty *dict* literals `{}` to the working equality
and strict-inequality collections (lines 99-100, 107-108, 115-116), and calling
`.remove` on a dict raises `AttributeError` while removing an absent element from a
set raises `KeyError`.  Exceptions are modelled by the enumeration `PyErr`, one
constructor per distinct raise site / message.
-/

namespace BSALinear

/-- A linear polynomial over the rationals: list of variable coefficients
(position = variable index, missing entries are zero) plus the constant term. -/
structure LinPoly where
  coeffs : List ℚ
  const : ℚ
deriving DecidableEq

/-- Coefficientwise addition of coefficient lists (shorter list padded with zeros). -/
def addC : List ℚ → List ℚ → List ℚ
  | [], ys => ys
  | xs, [] => xs
  | x :: xs, y :: ys => (x + y) :: addC xs ys

/-- Sum of two linear polynomials. -/
def LinPoly.add (p q : LinPoly) : LinPoly := ⟨addC p.coeffs q.coeffs, p.const + q.const⟩

/-- Scalar multiple of a linear polynomial. -/
def LinPoly.smul (c : ℚ) (p : LinPoly) : LinPoly :=
  ⟨p.coeffs.map (fun a => c * a), c * p.const⟩

/-- Difference of two linear polynomials. -/
def LinPoly.sub (p q : LinPoly) : LinPoly := p.add (LinPoly.smul (-1) q)

/-- The generator `x_i` of the polynomial ring, as a linear polynomial. -/
def LinPoly.X (i : ℕ) : LinPoly := ⟨List.replicate i 0 ++ [1], 0⟩

/-- `monomial_coefficient`: the coefficient of generator `x_i`. -/
def LinPoly.mc (p : LinPoly) (i : ℕ) : ℚ := p.coeffs.getD i 0

/-- Evaluate a coefficient list against an assignment of rational values to the
variables (variable `j` gets value `x j`). -/
def evalC : List ℚ → (ℕ → ℚ) → ℚ
  | [], _ => 0
  | c :: cs, x => c * x 0 + evalC cs (fun j => x (j + 1))

/-- Value of the linear polynomial at an assignment. -/
def LinPoly.eval (p : LinPoly) (x : ℕ → ℚ) : ℚ := evalC p.coeffs x + p.const

/-- Modelled from the spec: `BasicSemialgebraicSet_base.section` (defined in
`basic_semialgebraic.py`, outside the file under verification) applies a polynomial
map to every constraint.  With the map built in `one_step_elimination`
(lines 135-136: the new generators in order, with the constant `0` inserted at the
eliminated index), this substitutes `0` for the eliminated variable and renumbers
the remaining variables, keeping their relative order: on a linear polynomial it
deletes coefficient `i` and shifts the later coefficients down. -/
def LinPoly.sect (i : ℕ) (p : LinPoly) : LinPoly := ⟨p.coeffs.eraseIdx i, p.const⟩

/-- Degree of the linear part: `0` for a constant, `1` otherwise.  (Sage reports
`-1` for the zero polynomial; only the comparison `degree > 1` is ever made, for
which `0` is equivalent.) -/
def LinPoly.lindeg (p : LinPoly) : ℕ := if p.coeffs.all (fun a => a == 0) then 0 else 1

/-- A polynomial as supplied to the constructor or to `add_polynomial_constraint`.

`ring hi lin` is an element of the declared polynomial ring whose monomials of
total degree at least two are listed in `hi` (each entry: exponent list,
coefficient — the canonical representation lists distinct monomials with nonzero
coefficients) and whose affine part is `lin`.

`base c` is an element whose Sage parent is *not* the declared polynomial ring and
that the base ring can evaluate to the constant `c` (e.g. a base-ring element, or a
constant polynomial of a coercible smaller ring); these are exactly the inputs the
constant-evaluation loops of `__init__` act on. -/
inductive InPoly where
  | ring (hi : List (List ℕ × ℚ)) (lin : LinPoly)
  | base (c : ℚ)
deriving DecidableEq

/-- `e.degree()`: maximal total degree of a monomial with nonzero coefficient. -/
def InPoly.degree : InPoly → ℕ
  | .ring hi lin => ((hi.filter (fun m => m.2 != 0)).map (fun m => m.1.sum)).foldr max lin.lindeg
  | .base _ => 0

/-- `e.parent() == poly_ring`. -/
def InPoly.isRing : InPoly → Bool
  | .ring _ _ => true
  | .base _ => false

/-- The linear polynomial underlying an input of degree at most one (a base-ring
element coerces to the constant polynomial). -/
def InPoly.toLin : InPoly → LinPoly
  | .ring _ lin => lin
  | .base c => ⟨[], c⟩

/-- Value of an input polynomial at an assignment (higher monomials included). -/
def InPoly.eval : InPoly → (ℕ → ℚ) → ℚ
  | .ring hi lin, x =>
    lin.eval x +
      (hi.map (fun m =>
        m.2 * ((List.range m.1.length).map (fun j => x j ^ m.1.getD j 0)).prod)).sum
  | .base c, _ => c

/-- The Python exceptions raised by the file, one constructor per raise site. -/
inductive PyErr where
  /-- `ValueError("only suitable for linear system.")` (line 78). -/
  | degreeError
  /-- `ValueError("not a proper poly_ring.")` (line 82). -/
  | properRingError
  /-- `ValueError("doesn't exist the elimination variable")` (line 130). -/
  | elimVarError
  /-- `ValueError("Coordinate not found in the polynomial ring")` (line 204). -/
  | coordNotFoundError
  /-- `ValueError("... is not a valid linear polynomial.")` (line 261). -/
  | addDegreeError
  /-- `ValueError("... is not a supported operator")` (line 273). -/
  | opError
  /-- `AttributeError`: calling a set method (`.remove`, `.add`) on a dict. -/
  | attributeError
  /-- `KeyError`: removing an element that is not in the set. -/
  | keyError
deriving DecidableEq

/-- A working collection inside `__init__`: normally a Python set of input
polynomials (modelled as a duplicate-free list), but the infeasibility collapse
overwrites the equality and strict-inequality collections with empty dict
literals `{}`. -/
inductive PyColl where
  | pset (l : List InPoly)
  | pdict
deriving DecidableEq

/-- Python `coll.remove(x)`: deletes `x` from a set (`KeyError` when absent);
a dict has no `.remove`, so `AttributeError`. -/
def PyColl.remove : PyColl → InPoly → Except PyErr PyColl
  | .pset l, x => if x ∈ l then .ok (.pset (l.erase x)) else .error .keyError
  | .pdict, _ => .error .attributeError

/-- A stored constraint collection of a constructed store (`self._eq`, `self._lt`,
`self._le`): a set of linear polynomials, or the empty dict left by the collapse. -/
inductive Coll where
  | cset (l : List LinPoly)
  | cdict
deriving DecidableEq

/-- Iterating over the collection (iterating a dict `{}` yields nothing). -/
def Coll.toList : Coll → List LinPoly
  | .cset l => l
  | .cdict => []

/-- Python `coll.add(p)`: adds to a set (no-op when present); a dict has no
`.add`, so `AttributeError`. -/
def Coll.add : Coll → LinPoly → Except PyErr Coll
  | .cset l, p => .ok (.cset (if p ∈ l then l else l ++ [p]))
  | .cdict, _ => .error .attributeError

/-- Map a function over the polynomials of a collection. -/
def Coll.mapC (f : LinPoly → LinPoly) : Coll → Coll
  | .cset l => .cset (l.map f)
  | .cdict => .cdict

/-- Final conversion of a working collection into a stored one: the surviving
set elements (all of degree at most one) are read as linear polynomials. -/
def PyColl.store : PyColl → Coll
  | .pset l => .cset (l.map InPoly.toLin)
  | .pdict => .cdict

/-- `BasicSemialgebraicSet_polyhedral_linear_system`: the polynomial ring with `n`
generators together with the three constraint collections.  (The `base_ring` is
the rationals throughout; `ambient_dim` plays no role in the verified claims.) -/
structure LinearSystem where
  n : ℕ
  eqs : Coll
  lts : Coll
  les : Coll
deriving DecidableEq

instance {ε α : Type} [DecidableEq ε] [DecidableEq α] : DecidableEq (Except ε α)
  | .error e, .error f => decidable_of_iff (e = f) (by simp)
  | .error _, .ok _ => isFalse (fun h => by cases h)
  | .ok _, .error _ => isFalse (fun h => by cases h)
  | .ok a, .ok b => decidable_of_iff (a = b) (by simp)

/-- The constant polynomial `1` (`poly_ring(1)`), the canonical unsatisfiable
constraint `1 <= 0`. -/
def onePoly : LinPoly := ⟨[], 1⟩

/-- The collapsed infeasible store: `le = {poly_ring(1)}`, `eq = {}`, `lt = {}`
(the latter two being dict literals). -/
def collapsedStore (n : ℕ) : LinearSystem := ⟨n, .cdict, .cdict, .cset [onePoly]⟩

/-- The triple of working collections `(temp_eq, temp_lt, temp_le)` inside
`__init__`. -/
structure TempSt where
  te : PyColl
  tl : PyColl
  tle : PyColl
deriving DecidableEq

/-- The state written by the infeasibility collapse:
`temp_le={poly_ring(1)}; temp_eq={}; temp_lt={}`. -/
def collapseSt : TempSt := ⟨.pdict, .pdict, .pset [.ring [] onePoly]⟩

/-- One iteration of the equality loop (lines 94-102): elements of the polynomial
ring are skipped; a base-ring constant is evaluated — nonzero collapses the state,
zero is removed from `temp_eq`. -/
def eqStep (st : TempSt) (e : InPoly) : Except PyErr TempSt :=
  match e with
  | .ring _ _ => .ok st
  | .base c =>
    if c ≠ 0 then .ok collapseSt
    else (st.te.remove (.base c)).map (fun t => ⟨t, st.tl, st.tle⟩)

/-- One iteration of the strict-inequality loop (lines 103-110): a base-ring
constant that is `>= 0` collapses the state, otherwise it is removed from
`temp_lt`. -/
def ltStep (st : TempSt) (e : InPoly) : Except PyErr TempSt :=
  match e with
  | .ring _ _ => .ok st
  | .base c =>
    if 0 ≤ c then .ok collapseSt
    else (st.tl.remove (.base c)).map (fun t => ⟨st.te, t, st.tle⟩)

/-- One iteration of the non-strict-inequality loop (lines 111-118): a base-ring
constant that is `> 0` collapses the state, otherwise it is removed from
`temp_le`. -/
def leStep (st : TempSt) (e : InPoly) : Except PyErr TempSt :=
  match e with
  | .ring _ _ => .ok st
  | .base c =>
    if 0 < c then .ok collapseSt
    else (st.tle.remove (.base c)).map (fun t => ⟨st.te, st.tl, t⟩)

/-- `__init__(poly_ring with n generators, eq, lt, le)` (lines 72-121).

Checks, in source order: every input must have degree at most one
(`ValueError` otherwise); when inputs are present, their common parent must be the
declared polynomial ring — with inputs drawn from the ring and from base-ring
constants, the common parent is the polynomial ring exactly when at least one
input lies in it.  Then each of the three loops evaluates the base-ring constants
of its input set (Python `set(...)` deduplicates) against the working collections,
and the survivors are stored. -/
def init (n : ℕ) (eqL ltL leL : List InPoly) : Except PyErr LinearSystem :=
  let polys := eqL ++ ltL ++ leL
  if polys.any (fun p => decide (1 < p.degree)) then .error .degreeError
  else if !polys.isEmpty && !polys.any InPoly.isRing then .error .properRingError
  else
    (eqL.dedup.foldlM eqStep ⟨.pset eqL.dedup, .pset ltL.dedup, .pset leL.dedup⟩).bind
      (fun st1 => (ltL.dedup.foldlM ltStep st1).bind
        (fun st2 => (leL.dedup.foldlM leStep st2).map
          (fun st3 => ⟨n, st3.te.store, st3.tl.store, st3.tle.store⟩)))

/-- An assignment satisfies the store when every stored equality vanishes, every
stored strict inequality is negative and every stored non-strict inequality is
nonpositive. -/
def satisfies (x : ℕ → ℚ) (S : LinearSystem) : Prop :=
  (∀ p ∈ S.eqs.toList, p.eval x = 0) ∧ (∀ p ∈ S.lts.toList, p.eval x < 0) ∧
    (∀ p ∈ S.les.toList, p.eval x ≤ 0)

instance (x : ℕ → ℚ) (S : LinearSystem) : Decidable (satisfies x S) := by
  unfold satisfies; infer_instance

/-- The substitution expression found on line 145:
`sub = x_i - e / e.monomial_coefficient(x_i)`. -/
def subFor (i : ℕ) (e : LinPoly) : LinPoly :=
  (LinPoly.X i).sub (LinPoly.smul (1 / e.mc i) e)

/-- The substitution applied in the equality branch of `one_step_elimination`
(lines 185-190): `p + p.monomial_coefficient(x_i) * (sub - x_i)`. -/
def substF (subP : LinPoly) (i : ℕ) (p : LinPoly) : LinPoly :=
  p.add (LinPoly.smul (p.mc i) (subP.sub (LinPoly.X i)))

/-- The Fourier-Motzkin combination of a lower-bound and an upper-bound
constraint (lines 170-183): `l * u.monomial_coefficient(x_i) - u * l.monomial_coefficient(x_i)`. -/
def combP (i : ℕ) (l u : LinPoly) : LinPoly :=
  (LinPoly.smul (u.mc i) l).sub (LinPoly.smul (l.mc i) u)

/-- Bucket of constraints with positive coefficient on `x_i` (upper bounds). -/
def upperOf (i : ℕ) (l : List LinPoly) : List LinPoly :=
  l.filter (fun p => decide (0 < p.mc i))

/-- Bucket of constraints with negative coefficient on `x_i` (lower bounds). -/
def lowerOf (i : ℕ) (l : List LinPoly) : List LinPoly :=
  l.filter (fun p => decide (p.mc i < 0))

/-- Bucket of constraints not involving `x_i`, carried through unchanged. -/
def zeroOf (i : ℕ) (l : List LinPoly) : List LinPoly :=
  l.filter (fun p => p.mc i == 0)

/-- The `new_le` list of the Fourier-Motzkin branch (lines 161-172): carried
non-strict constraints followed by the lower/upper combinations of two
non-strict inequalities. -/
def fmLe (S : LinearSystem) (i : ℕ) : List LinPoly :=
  zeroOf i S.les.toList ++
    (lowerOf i S.les.toList).flatMap (fun l => (upperOf i S.les.toList).map (combP i l))

/-- The `new_lt` list of the Fourier-Motzkin branch (lines 154-183): carried
strict constraints followed by every lower/upper combination that involves at
least one strict inequality. -/
def fmLt (S : LinearSystem) (i : ℕ) : List LinPoly :=
  zeroOf i S.lts.toList ++
    ((lowerOf i S.les.toList).flatMap (fun l => (upperOf i S.lts.toList).map (combP i l))) ++
    ((lowerOf i S.lts.toList).flatMap (fun l => (upperOf i S.les.toList).map (combP i l))) ++
    ((lowerOf i S.lts.toList).flatMap (fun l => (upperOf i S.lts.toList).map (combP i l)))

/-- Apply the section (substitute `0` for generator `i`, renumber) to a whole
store; the resulting ring has one generator fewer. -/
def sectSys (i : ℕ) (S : LinearSystem) : LinearSystem :=
  ⟨S.n - 1, S.eqs.mapC (LinPoly.sect i), S.lts.mapC (LinPoly.sect i), S.les.mapC (LinPoly.sect i)⟩

/-- `one_step_elimination(coordinate_index)` (lines 123-193).

Out-of-range index: `ValueError`.  Otherwise scan the equality set for one with a
nonzero coefficient on the variable; if found, substitute
`sub = x_i - e / e.monomial_coefficient(x_i)` into every constraint
(substitution branch), else pairwise-combine lower and upper bounds
(Fourier-Motzkin branch), carrying zero-coefficient constraints through.  The new
lists are fed to the constructor over the same ring, and the section maps the
result onto the ring with the variable removed. -/
def one_step_elimination (S : LinearSystem) (i : ℕ) : Except PyErr LinearSystem :=
  if S.n ≤ i then .error .elimVarError
  else
    match S.eqs.toList.find? (fun e => e.mc i != 0) with
    | some e =>
      (init S.n ((S.eqs.toList.map (substF (subFor i e) i)).map (InPoly.ring []))
        ((S.lts.toList.map (substF (subFor i e) i)).map (InPoly.ring []))
        ((S.les.toList.map (substF (subFor i e) i)).map (InPoly.ring []))).map (sectSys i)
    | none =>
      (init S.n (S.eqs.toList.map (InPoly.ring []))
        ((fmLt S i).map (InPoly.ring [])) ((fmLe S i).map (InPoly.ring []))).map (sectSys i)

/-- The comparison operators accepted by `add_polynomial_constraint`; `other`
stands for any unsupported operator. -/
inductive PyOp where
  | lt | gt | eq | le | ge | other
deriving DecidableEq

/-- Negation of a linear polynomial. -/
def LinPoly.neg (p : LinPoly) : LinPoly := LinPoly.smul (-1) p

/-- `add_polynomial_constraint(lhs, op)` (lines 248-273): coerce `lhs` into the
ring (a base-ring element becomes the constant polynomial), reject degree above
one, then add `lhs`, or `-lhs` for the mirrored operators, to the matching
collection. -/
def add_polynomial_constraint (S : LinearSystem) (lhs : InPoly) (op : PyOp) :
    Except PyErr LinearSystem :=
  if 1 < lhs.degree then .error .addDegreeError
  else
    match op with
    | .lt => (S.lts.add lhs.toLin).map (fun c => ⟨S.n, S.eqs, c, S.les⟩)
    | .gt => (S.lts.add lhs.toLin.neg).map (fun c => ⟨S.n, S.eqs, c, S.les⟩)
    | .eq => (S.eqs.add lhs.toLin).map (fun c => ⟨S.n, c, S.lts, S.les⟩)
    | .le => (S.les.add lhs.toLin).map (fun c => ⟨S.n, S.eqs, S.lts, c⟩)
    | .ge => (S.les.add lhs.toLin.neg).map (fun c => ⟨S.n, S.eqs, S.lts, c⟩)
    | .other => .error .opError

/-- The elimination loop of `coordinate_projection` (lines 206-213): eliminate the
head position, then decrement every remaining resolved position that is strictly
greater than the position just removed. -/
def projLoop (S : LinearSystem) (ps : List ℕ) : Except PyErr LinearSystem :=
  match ps with
  | [] => .ok S
  | p :: rest =>
    (one_step_elimination S p).bind
      (fun S' => projLoop S' (rest.map (fun q => if p < q then q - 1 else q)))
termination_by ps.length
decreasing_by simp [List.length_map]

/-- `coordinate_projection(coordinates)` (lines 195-213): every target must be a
generator of the original ring (`ValueError` otherwise); the targets are resolved
to their positions in the original ring once, then eliminated in the given order
with index adjustment.  Targets are given here by their original-ring positions. -/
def coordinate_projection (S : LinearSystem) (coords : List ℕ) : Except PyErr LinearSystem :=
  if coords.all (fun c => decide (c < S.n)) then projLoop S coords
  else .error .coordNotFoundError

/-- Position, in the ring obtained from the original one by deleting the distinct
generators listed in `done`, of the surviving original generator `t`: its original
position minus the number of deleted generators before it. -/
def currentIndex (done : List ℕ) (t : ℕ) : ℕ :=
  t - done.countP (fun d => decide (d < t))

/-- Reference driver for claim C8: eliminate each named target variable in the
caller-given order, re-resolving its position in the current ring at every step
(`done` lists the original positions already eliminated). -/
def projectNamed (S : LinearSystem) (ts : List ℕ) (done : List ℕ) : Except PyErr LinearSystem :=
  match ts with
  | [] => .ok S
  | t :: rest =>
    (one_step_elimination S (currentIndex done t)).bind
      (fun S' => projectNamed S' rest (done ++ [t]))

/-- Insert the value `v` at position `i` of the assignment `x`: the assignment of
the original ring whose restriction to the other coordinates, in order, is `x`. -/
def insertAt (i : ℕ) (v : ℚ) (x : ℕ → ℚ) : ℕ → ℚ :=
  fun j => if j < i then x j else if j = i then v else x (j - 1)

/-! ### Evaluation lemmas for the linear-polynomial arithmetic -/

theorem evalC_addC (a b : List ℚ) (x : ℕ → ℚ) :
    evalC (addC a b) x = evalC a x + evalC b x := by
  induction a generalizing b x with
  | nil => simp [addC, evalC]
  | cons c cs ih =>
    cases b with
    | nil => simp [addC, evalC]
    | cons d ds => simp only [addC, evalC, ih]; ring

theorem evalC_map_mul (c : ℚ) (a : List ℚ) (x : ℕ → ℚ) :
    evalC (a.map (fun t => c * t)) x = c * evalC a x := by
  induction a generalizing x with
  | nil => simp [evalC]
  | cons d ds ih => simp only [List.map_cons, evalC, ih]; ring

theorem LinPoly.eval_add (p q : LinPoly) (x : ℕ → ℚ) :
    (p.add q).eval x = p.eval x + q.eval x := by
  simp only [LinPoly.add, LinPoly.eval, evalC_addC]; ring

theorem LinPoly.eval_smul (c : ℚ) (p : LinPoly) (x : ℕ → ℚ) :
    (LinPoly.smul c p).eval x = c * p.eval x := by
  simp only [LinPoly.smul, LinPoly.eval, evalC_map_mul]; ring

theorem LinPoly.eval_sub (p q : LinPoly) (x : ℕ → ℚ) :
    (p.sub q).eval x = p.eval x - q.eval x := by
  simp only [LinPoly.sub, LinPoly.eval_add, LinPoly.eval_smul]; ring

theorem LinPoly.eval_neg (p : LinPoly) (x : ℕ → ℚ) : p.neg.eval x = -(p.eval x) := by
  simp only [LinPoly.neg, LinPoly.eval_smul]; ring

theorem evalC_X (i : ℕ) (x : ℕ → ℚ) : evalC (List.replicate i 0 ++ [1]) x = x i := by
  induction i generalizing x with
  | zero => simp [evalC]
  | succ k ih => simp [List.replicate_succ, evalC, ih]

theorem LinPoly.eval_X (i : ℕ) (x : ℕ → ℚ) : (LinPoly.X i).eval x = x i := by
  simp [LinPoly.X, LinPoly.eval, evalC_X]

theorem getD_addC (a b : List ℚ) (i : ℕ) :
    (addC a b).getD i 0 = a.getD i 0 + b.getD i 0 := by
  induction a generalizing b i with
  | nil => simp [addC]
  | cons c cs ih =>
    cases b with
    | nil => simp [addC]
    | cons d ds =>
      cases i with
      | zero => simp [addC]
      | succ j => simpa [addC] using ih ds j

theorem LinPoly.mc_add (p q : LinPoly) (i : ℕ) : (p.add q).mc i = p.mc i + q.mc i :=
  getD_addC p.coeffs q.coeffs i

theorem getD_map_mul (c : ℚ) (a : List ℚ) (i : ℕ) :
    (a.map (fun t => c * t)).getD i 0 = c * a.getD i 0 := by
  induction a generalizing i with
  | nil => simp
  | cons d ds ih =>
    cases i with
    | zero => simp
    | succ j => simpa using ih j

theorem LinPoly.mc_smul (c : ℚ) (p : LinPoly) (i : ℕ) :
    (LinPoly.smul c p).mc i = c * p.mc i :=
  getD_map_mul c p.coeffs i

theorem LinPoly.mc_sub (p q : LinPoly) (i : ℕ) : (p.sub q).mc i = p.mc i - q.mc i := by
  simp only [LinPoly.sub, LinPoly.mc_add, LinPoly.mc_smul]; ring

theorem LinPoly.mc_neg (p : LinPoly) (i : ℕ) : p.neg.mc i = -(p.mc i) := by
  simp only [LinPoly.neg, LinPoly.mc_smul]; ring

theorem getD_X (i j : ℕ) :
    (List.replicate i (0:ℚ) ++ [1]).getD j 0 = if j = i then 1 else 0 := by
  induction i generalizing j with
  | zero => cases j <;> simp
  | succ k ih =>
    cases j with
    | zero => simp [List.replicate_succ]
    | succ m => simpa [List.replicate_succ] using ih m

theorem LinPoly.mc_X (i j : ℕ) : (LinPoly.X i).mc j = if j = i then 1 else 0 :=
  getD_X i j

/-! ### Interaction of evaluation with `insertAt` and the section -/

theorem insertAt_zero_comp (v : ℚ) (x : ℕ → ℚ) :
    (fun j => insertAt 0 v x (j + 1)) = x := by
  funext j; simp [insertAt]

theorem insertAt_succ_comp (i : ℕ) (v : ℚ) (x : ℕ → ℚ) :
    (fun j => insertAt (i + 1) v x (j + 1)) = insertAt i v (fun j => x (j + 1)) := by
  funext j
  unfold insertAt
  rcases lt_trichotomy j i with h | h | h
  · simp [h, Nat.succ_lt_succ h]
  · subst h; simp
  · have h1 : ¬ j < i := by omega
    have h2 : ¬ j + 1 < i + 1 := by omega
    have h3 : j ≠ i := by omega
    have h4 : j + 1 ≠ i + 1 := by omega
    simp only [h1, h2, h3, h4, if_false]
    congr 1
    omega

theorem evalC_insertAt (a : List ℚ) (i : ℕ) (v : ℚ) (x : ℕ → ℚ) :
    evalC a (insertAt i v x) = evalC (a.eraseIdx i) x + a.getD i 0 * v := by
  induction i generalizing a x with
  | zero =>
    cases a with
    | nil => simp [evalC]
    | cons c cs =>
      simp only [evalC, List.eraseIdx, insertAt_zero_comp, List.getD_cons_zero]
      have h0 : insertAt 0 v x 0 = v := by simp [insertAt]
      rw [h0]; ring
  | succ k ih =>
    cases a with
    | nil => simp [evalC]
    | cons c cs =>
      simp only [evalC, List.eraseIdx, insertAt_succ_comp, List.getD_cons_succ, ih]
      have h0 : insertAt (k + 1) v x 0 = x 0 := by simp [insertAt]
      rw [h0]; ring

theorem LinPoly.eval_insertAt (p : LinPoly) (i : ℕ) (v : ℚ) (x : ℕ → ℚ) :
    p.eval (insertAt i v x) = (p.sect i).eval x + p.mc i * v := by
  simp only [LinPoly.eval, LinPoly.sect, LinPoly.mc, evalC_insertAt]; ring

theorem LinPoly.eval_sect_of_mc_zero (p : LinPoly) (i : ℕ) (v : ℚ) (x : ℕ → ℚ)
    (h : p.mc i = 0) : (p.sect i).eval x = p.eval (insertAt i v x) := by
  rw [LinPoly.eval_insertAt, h]; ring

/-! ### The constructor on lists of polynomial-ring elements -/

theorem lindeg_le_one (p : LinPoly) : p.lindeg ≤ 1 := by
  unfold LinPoly.lindeg; split <;> omega

theorem okBind {ε α β : Type} (a : α) (f : α → Except ε β) :
    (Except.ok a : Except ε α).bind f = f a := rfl

theorem okMap {ε α β : Type} (a : α) (f : α → β) :
    (Except.ok a : Except ε α).map f = .ok (f a) := rfl

theorem foldlM_ok_of_ring (step : TempSt → InPoly → Except PyErr TempSt)
    (hstep : ∀ st hi lin, step st (.ring hi lin) = .ok st)
    (l : List InPoly) (hl : ∀ e ∈ l, e.isRing = true) (st : TempSt) :
    l.foldlM step st = .ok st := by
  induction l generalizing st with
  | nil => rfl
  | cons a as ih =>
    cases a with
    | ring hi lin =>
      have h2 : as.foldlM step st = .ok st :=
        ih (fun e he => hl e (List.mem_cons_of_mem _ he)) st
      rw [List.foldlM_cons, hstep]
      exact h2
    | base c =>
      have := hl (.base c) (List.mem_cons_self _ _)
      simp [InPoly.isRing] at this

theorem mem_dedup_map_toLin (l : List LinPoly) (p : LinPoly) :
    p ∈ ((l.map (InPoly.ring [])).dedup.map InPoly.toLin) ↔ p ∈ l := by
  constructor
  · intro hp
    obtain ⟨q, hq, rfl⟩ := List.mem_map.mp hp
    obtain ⟨r, hr, rfl⟩ := List.mem_map.mp (List.mem_dedup.mp hq)
    exact hr
  · intro hp
    exact List.mem_map.mpr ⟨.ring [] p, List.mem_dedup.mpr (List.mem_map.mpr ⟨p, hp, rfl⟩), rfl⟩

theorem init_ring (n : ℕ) (eqL ltL leL : List LinPoly) :
    init n (eqL.map (InPoly.ring [])) (ltL.map (InPoly.ring [])) (leL.map (InPoly.ring [])) =
      .ok ⟨n, .cset ((eqL.map (InPoly.ring [])).dedup.map InPoly.toLin),
        .cset ((ltL.map (InPoly.ring [])).dedup.map InPoly.toLin),
        .cset ((leL.map (InPoly.ring [])).dedup.map InPoly.toLin)⟩ := by
  have hring : ∀ e ∈ eqL.map (InPoly.ring []) ++ ltL.map (InPoly.ring []) ++
      leL.map (InPoly.ring []), e.isRing = true := by
    intro e he
    rcases List.mem_append.mp he with h | h
    · rcases List.mem_append.mp h with h' | h'
      · obtain ⟨r, _, rfl⟩ := List.mem_map.mp h'; rfl
      · obtain ⟨r, _, rfl⟩ := List.mem_map.mp h'; rfl
    · obtain ⟨r, _, rfl⟩ := List.mem_map.mp h; rfl
  have h1 : (eqL.map (InPoly.ring []) ++ ltL.map (InPoly.ring []) ++
      leL.map (InPoly.ring [])).any (fun p => decide (1 < p.degree)) = false := by
    rw [List.any_eq_false]
    intro e he
    have he' := hring e he
    cases e with
    | base c => simp [InPoly.isRing] at he'
    | ring hi lin =>
      rcases List.mem_append.mp he with h | h
      · rcases List.mem_append.mp h with h' | h'
        · obtain ⟨r, _, hr⟩ := List.mem_map.mp h'
          cases hr
          simp only [InPoly.degree, List.filter_nil, List.map_nil, List.foldr_nil,
            decide_eq_true_eq, not_lt]
          exact lindeg_le_one _
        · obtain ⟨r, _, hr⟩ := List.mem_map.mp h'
          cases hr
          simp only [InPoly.degree, List.filter_nil, List.map_nil, List.foldr_nil,
            decide_eq_true_eq, not_lt]
          exact lindeg_le_one _
      · obtain ⟨r, _, hr⟩ := List.mem_map.mp h
        cases hr
        simp only [InPoly.degree, List.filter_nil, List.map_nil, List.foldr_nil,
          decide_eq_true_eq, not_lt]
        exact lindeg_le_one _
  have h2 : (!(eqL.map (InPoly.ring []) ++ ltL.map (InPoly.ring []) ++
      leL.map (InPoly.ring [])).isEmpty &&
      !(eqL.map (InPoly.ring []) ++ ltL.map (InPoly.ring []) ++
        leL.map (InPoly.ring [])).any InPoly.isRing) = false := by
    by_cases hP : eqL.map (InPoly.ring []) ++ ltL.map (InPoly.ring []) ++
        leL.map (InPoly.ring []) = []
    · simp [hP]
    · obtain ⟨a, ha⟩ := List.exists_mem_of_ne_nil _ hP
      have : (eqL.map (InPoly.ring []) ++ ltL.map (InPoly.ring []) ++
          leL.map (InPoly.ring [])).any InPoly.isRing = true :=
        List.any_eq_true.mpr ⟨a, ha, hring a ha⟩
      rw [this]
      simp
  have hfold : ∀ (step : TempSt → InPoly → Except PyErr TempSt),
      (∀ st hi lin, step st (.ring hi lin) = .ok st) →
      ∀ (l : List LinPoly) (st : TempSt), (l.map (InPoly.ring [])).dedup.foldlM step st = .ok st := by
    intro step hstep l st
    refine foldlM_ok_of_ring step hstep _ (fun e he => ?_) st
    obtain ⟨r, _, rfl⟩ := List.mem_map.mp (List.mem_dedup.mp he)
    rfl
  simp only [init, h1, h2, Bool.false_eq_true, if_false,
    hfold eqStep (fun _ _ _ => rfl), hfold ltStep (fun _ _ _ => rfl),
    hfold leStep (fun _ _ _ => rfl), okBind]
  rfl

/-! ### Shapes of the two elimination branches -/

theorem one_step_subst (S : LinearSystem) (i : ℕ) (e : LinPoly)
    (hi : i < S.n) (hfind : S.eqs.toList.find? (fun q => q.mc i != 0) = some e) :
    one_step_elimination S i =
      .ok ⟨S.n - 1,
        .cset ((((S.eqs.toList.map (substF (subFor i e) i)).map
          (InPoly.ring [])).dedup.map InPoly.toLin).map (LinPoly.sect i)),
        .cset ((((S.lts.toList.map (substF (subFor i e) i)).map
          (InPoly.ring [])).dedup.map InPoly.toLin).map (LinPoly.sect i)),
        .cset ((((S.les.toList.map (substF (subFor i e) i)).map
          (InPoly.ring [])).dedup.map InPoly.toLin).map (LinPoly.sect i))⟩ := by
  have hi' : ¬ S.n ≤ i := by omega
  simp only [one_step_elimination, hi', if_false, hfind, init_ring, okMap]
  rfl

theorem one_step_fm (S : LinearSystem) (i : ℕ)
    (hi : i < S.n) (hfind : S.eqs.toList.find? (fun q => q.mc i != 0) = none) :
    one_step_elimination S i =
      .ok ⟨S.n - 1,
        .cset (((S.eqs.toList.map (InPoly.ring [])).dedup.map InPoly.toLin).map (LinPoly.sect i)),
        .cset ((((fmLt S i).map (InPoly.ring [])).dedup.map InPoly.toLin).map (LinPoly.sect i)),
        .cset ((((fmLe S i).map (InPoly.ring [])).dedup.map InPoly.toLin).map (LinPoly.sect i))⟩ := by
  have hi' : ¬ S.n ≤ i := by omega
  simp only [one_step_elimination, hi', if_false, hfind, init_ring, okMap]
  rfl

theorem mem_store_map (l : List LinPoly) (i : ℕ) (p : LinPoly) :
    p ∈ (((l.map (InPoly.ring [])).dedup.map InPoly.toLin).map (LinPoly.sect i)) ↔
      ∃ q ∈ l, q.sect i = p := by
  constructor
  · intro hp
    obtain ⟨q, hq, rfl⟩ := List.mem_map.mp hp
    exact ⟨q, (mem_dedup_map_toLin l q).mp hq, rfl⟩
  · rintro ⟨q, hq, rfl⟩
    exact List.mem_map.mpr ⟨q, (mem_dedup_map_toLin l q).mpr hq, rfl⟩

theorem one_step_err (S : LinearSystem) (i : ℕ) (hi : S.n ≤ i) :
    one_step_elimination S i = .error .elimVarError := by
  unfold one_step_elimination
  rw [if_pos hi]

theorem one_step_ok (S : LinearSystem) (i : ℕ) (hi : i < S.n) :
    ∃ T, one_step_elimination S i = .ok T := by
  cases hfind : S.eqs.toList.find? (fun q => q.mc i != 0) with
  | some e => exact ⟨_, one_step_subst S i e hi hfind⟩
  | none => exact ⟨_, one_step_fm S i hi hfind⟩

theorem one_step_n (S : LinearSystem) (i : ℕ) (T : LinearSystem)
    (h : one_step_elimination S i = .ok T) : T.n = S.n - 1 := by
  by_cases hi : S.n ≤ i
  · rw [one_step_err S i hi] at h; cases h
  · cases hfind : S.eqs.toList.find? (fun q => q.mc i != 0) with
    | some e =>
      rw [one_step_subst S i e (by omega) hfind] at h
      cases h; rfl
    | none =>
      rw [one_step_fm S i (by omega) hfind] at h
      cases h; rfl

/-! ### Classification of the errors the constructor loops can raise -/

theorem errMap {ε α β : Type} (e : ε) (f : α → β) :
    (Except.error e : Except ε α).map f = .error e := rfl

theorem remove_err (c : PyColl) (e : InPoly) (er : PyErr) (h : c.remove e = .error er) :
    er = .keyError ∨ er = .attributeError := by
  cases c with
  | pset l =>
    simp only [PyColl.remove] at h
    by_cases hm : e ∈ l
    · rw [if_pos hm] at h; cases h
    · rw [if_neg hm] at h
      injection h with h'
      exact .inl h'.symm
  | pdict =>
    have h2 : (Except.error PyErr.attributeError : Except PyErr PyColl) = .error er := h
    injection h2 with h'
    exact .inr h'.symm

theorem eqStep_err (st : TempSt) (e : InPoly) (er : PyErr) (h : eqStep st e = .error er) :
    er = .keyError ∨ er = .attributeError := by
  cases e with
  | ring hi lin => cases h
  | base c =>
    simp only [eqStep] at h
    by_cases hc : c ≠ 0
    · rw [if_pos hc] at h; cases h
    · rw [if_neg hc] at h
      cases hrem : st.te.remove (.base c) with
      | ok t => rw [hrem, okMap] at h; cases h
      | error er2 =>
        rw [hrem, errMap] at h
        injection h with h'
        cases h'
        exact remove_err _ _ _ hrem

theorem ltStep_err (st : TempSt) (e : InPoly) (er : PyErr) (h : ltStep st e = .error er) :
    er = .keyError ∨ er = .attributeError := by
  cases e with
  | ring hi lin => cases h
  | base c =>
    simp only [ltStep] at h
    by_cases hc : 0 ≤ c
    · rw [if_pos hc] at h; cases h
    · rw [if_neg hc] at h
      cases hrem : st.tl.remove (.base c) with
      | ok t => rw [hrem, okMap] at h; cases h
      | error er2 =>
        rw [hrem, errMap] at h
        injection h with h'
        cases h'
        exact remove_err _ _ _ hrem

theorem leStep_err (st : TempSt) (e : InPoly) (er : PyErr) (h : leStep st e = .error er) :
    er = .keyError ∨ er = .attributeError := by
  cases e with
  | ring hi lin => cases h
  | base c =>
    simp only [leStep] at h
    by_cases hc : 0 < c
    · rw [if_pos hc] at h; cases h
    · rw [if_neg hc] at h
      cases hrem : st.tle.remove (.base c) with
      | ok t => rw [hrem, okMap] at h; cases h
      | error er2 =>
        rw [hrem, errMap] at h
        injection h with h'
        cases h'
        exact remove_err _ _ _ hrem

theorem foldlM_err_cases (step : TempSt → InPoly → Except PyErr TempSt)
    (hstep : ∀ st e er, step st e = .error er → er = .keyError ∨ er = .attributeError)
    (l : List InPoly) :
    ∀ (st : TempSt) (er : PyErr), l.foldlM step st = .error er →
      er = .keyError ∨ er = .attributeError := by
  induction l with
  | nil => intro st er h; cases h
  | cons a as ih =>
    intro st er h
    rw [List.foldlM_cons] at h
    cases hs : step st a with
    | ok st' =>
      rw [hs] at h
      exact ih st' er h
    | error er2 =>
      rw [hs] at h
      have h2 : (Except.error er2 : Except PyErr TempSt) = .error er := h
      injection h2 with h3
      cases h3
      exact hstep st a _ hs

theorem init_err_of_no_degree (n : ℕ) (eqL ltL leL : List InPoly)
    (hdeg : ((eqL ++ ltL ++ leL).any (fun p => decide (1 < p.degree))) = false)
    (er : PyErr) (h : init n eqL ltL leL = .error er) :
    er = .properRingError ∨ er = .keyError ∨ er = .attributeError := by
  simp only [init] at h
  rw [hdeg] at h
  simp only [Bool.false_eq_true, if_false] at h
  by_cases hg : (!(eqL ++ ltL ++ leL).isEmpty &&
      !(eqL ++ ltL ++ leL).any InPoly.isRing) = true
  · rw [if_pos hg] at h
    cases h
    exact .inl rfl
  · rw [if_neg hg] at h
    cases h1 : eqL.dedup.foldlM eqStep ⟨.pset eqL.dedup, .pset ltL.dedup, .pset leL.dedup⟩ with
    | error er1 =>
      rw [h1] at h
      have h2 : (Except.error er1 : Except PyErr LinearSystem) = .error er := h
      injection h2 with h3
      cases h3
      exact .inr (foldlM_err_cases eqStep eqStep_err _ _ _ h1)
    | ok st1 =>
      simp only [h1, okBind] at h
      cases h2 : ltL.dedup.foldlM ltStep st1 with
      | error er2 =>
        simp only [h2] at h
        have h3 : (Except.error er2 : Except PyErr LinearSystem) = .error er := h
        injection h3 with h4
        cases h4
        exact .inr (foldlM_err_cases ltStep ltStep_err _ _ _ h2)
      | ok st2 =>
        simp only [h2, okBind] at h
        cases h3 : leL.dedup.foldlM leStep st2 with
        | error er3 =>
          simp only [h3, errMap] at h
          have h4 : (Except.error er3 : Except PyErr LinearSystem) = .error er := h
          injection h4 with h5
          cases h5
          exact .inr (foldlM_err_cases leStep leStep_err _ _ _ h3)
        | ok st3 =>
          simp only [h3, okMap] at h
          cases h

/-! ### Claim theorems: C9, C10, C2 (counterexample), C7 -/

/-- C9: `one_step_elimination` fails with the out-of-range index error of
lines 128-131 exactly when the requested variable index is at least the number of
generators of the current ring; for every in-range index it returns a store and
never raises that error. -/
theorem C9_elim_index_error (S : LinearSystem) (i : ℕ) :
    (one_step_elimination S i = .error .elimVarError ↔ S.n ≤ i) ∧
      ((∃ T, one_step_elimination S i = .ok T) ↔ i < S.n) := by
  constructor
  · constructor
    · intro h
      by_contra hi
      obtain ⟨T, hT⟩ := one_step_ok S i (by omega)
      rw [hT] at h; cases h
    · exact one_step_err S i
  · constructor
    · rintro ⟨T, hT⟩
      by_contra hi
      rw [one_step_err S i (by omega)] at hT; cases hT
    · exact one_step_ok S i

/-- C10: on constructor input `eq = [5]`, `lt = [-1]`, `le = [x0]` (the two
constants being base-ring elements, the third a genuine linear polynomial of the
ring), the violated constant equality collapses the working collections, replacing
`temp_eq` and `temp_lt` by empty dict literals; the later-processed trivially
satisfied constant `-1 < 0` then calls `.remove` on the dict `temp_lt` and
`__init__` raises `AttributeError` — it neither returns the collapsed infeasible
store nor raises one of the documented input errors. -/
theorem C10_attribute_error :
    init 1 [.base 5] [.base (-1)] [.ring [] ⟨[1], 0⟩] = .error .attributeError := by
  rfl

/-- C2 counterexample: adding the constant equality `5 = 0` through
`add_polynomial_constraint` stores the constant as an ordinary equality and does
not collapse the store to the canonical unsatisfiable representation — no
constant evaluation happens at `add_*` calls, contradicting the claim. -/
theorem C2_counterexample :
    add_polynomial_constraint ⟨1, .cset [], .cset [], .cset []⟩ (.base 5) .eq =
        .ok ⟨1, .cset [⟨[], 5⟩], .cset [], .cset []⟩ ∧
      (⟨1, .cset [⟨[], 5⟩], .cset [], .cset []⟩ : LinearSystem) ≠ collapsedStore 1 := by
  exact ⟨rfl, by decide⟩

/-- C7: supplying any constraint polynomial of degree at least two — in any of the
constructor lists or to `add_polynomial_constraint` — raises the degree
`ValueError` (hence nothing is stored), while inputs of degree at most one never
trigger the degree error. -/
theorem C7_degree_rejection (n : ℕ) (eqL ltL leL : List InPoly) (p : InPoly)
    (S : LinearSystem) (lhs : InPoly) (op : PyOp) :
    (p ∈ eqL ++ ltL ++ leL → 2 ≤ p.degree → init n eqL ltL leL = .error .degreeError) ∧
    (2 ≤ lhs.degree → add_polynomial_constraint S lhs op = .error .addDegreeError) ∧
    ((∀ q ∈ eqL ++ ltL ++ leL, q.degree ≤ 1) → init n eqL ltL leL ≠ .error .degreeError) ∧
    (lhs.degree ≤ 1 → add_polynomial_constraint S lhs op ≠ .error .addDegreeError) := by
  refine ⟨?_, ?_, ?_, ?_⟩
  · intro hp hdeg
    have hany : ((eqL ++ ltL ++ leL).any (fun q => decide (1 < q.degree))) = true :=
      List.any_eq_true.mpr ⟨p, hp, by simp only [decide_eq_true_eq]; omega⟩
    simp only [init]
    rw [hany]
    simp
  · intro hdeg
    unfold add_polynomial_constraint
    rw [if_pos (by omega)]
  · intro hall h
    have hdeg : ((eqL ++ ltL ++ leL).any (fun q => decide (1 < q.degree))) = false := by
      rw [List.any_eq_false]
      intro q hq
      simp only [decide_eq_true_eq, not_lt]
      exact hall q hq
    rcases init_err_of_no_degree n eqL ltL leL hdeg _ h with h' | h' | h' <;> cases h'
  · intro hdeg h
    unfold add_polynomial_constraint at h
    rw [if_neg (by omega)] at h
    cases op with
    | lt => cases hS : S.lts <;> rw [hS] at h <;> simp [Coll.add, okMap, errMap] at h
    | gt => cases hS : S.lts <;> rw [hS] at h <;> simp [Coll.add, okMap, errMap] at h
    | eq => cases hS : S.eqs <;> rw [hS] at h <;> simp [Coll.add, okMap, errMap] at h
    | le => cases hS : S.les <;> rw [hS] at h <;> simp [Coll.add, okMap, errMap] at h
    | ge => cases hS : S.les <;> rw [hS] at h <;> simp [Coll.add, okMap, errMap] at h
    | other => simp at h

/-- Witness for C7 at concrete inputs: the quadratic monomial `3 * x0 ^ 2` is
rejected by both entry points, and the linear polynomial `x0` passes the degree
check of both. -/
theorem C7_witness :
    init 1 [.ring [([2], 3)] ⟨[], 0⟩] [] [] = .error .degreeError ∧
    add_polynomial_constraint ⟨1, .cset [], .cset [], .cset []⟩
      (.ring [([2], 3)] ⟨[], 0⟩) .le = .error .addDegreeError ∧
    init 1 [.ring [] ⟨[1], 0⟩] [] [] ≠ .error .degreeError ∧
    add_polynomial_constraint ⟨1, .cset [], .cset [], .cset []⟩
      (.ring [] ⟨[1], 0⟩) .le ≠ .error .addDegreeError := by
  obtain ⟨h1, h2, -, -⟩ := C7_degree_rejection 1 [.ring [([2], 3)] ⟨[], 0⟩] [] []
    (.ring [([2], 3)] ⟨[], 0⟩) ⟨1, .cset [], .cset [], .cset []⟩
    (.ring [([2], 3)] ⟨[], 0⟩) .le
  obtain ⟨-, -, h3, h4⟩ := C7_degree_rejection 1 [.ring [] ⟨[1], 0⟩] [] []
    (.ring [] ⟨[1], 0⟩) ⟨1, .cset [], .cset [], .cset []⟩
    (.ring [] ⟨[1], 0⟩) .le
  exact ⟨h1 (by decide) (by decide), h2 (by decide),
    h3 (by decide), h4 (by decide)⟩

/-- C6: once a store is the collapsed infeasible representation `{1 <= 0}` (with
the equality and strict-inequality collections being empty dicts), eliminating any
in-range variable returns a store over the reduced ring that represents the empty
region, and no `add_*` call that returns a store can make it represent a
non-empty region: the constraint `1 <= 0` is carried through elimination and never
removed by `add` (adding an equality or strict inequality even raises
`AttributeError` on the dict, leaving the store unchanged). -/
theorem C6_infeasible_stays (n i : ℕ) (hi : i < n) (lhs : InPoly) (op : PyOp) :
    (∃ T, one_step_elimination (collapsedStore n) i = .ok T ∧ ∀ x, ¬ satisfies x T) ∧
      (∀ S', add_polynomial_constraint (collapsedStore n) lhs op = .ok S' →
        ∀ x, ¬ satisfies x S') := by
  constructor
  · have hfind : (collapsedStore n).eqs.toList.find? (fun q => q.mc i != 0) = none := rfl
    refine ⟨_, one_step_fm (collapsedStore n) i hi hfind, ?_⟩
    intro x hsat
    have hfmle : fmLe (collapsedStore n) i = [onePoly] := rfl
    have hone : (LinPoly.sect i onePoly) ∈ ((((fmLe (collapsedStore n) i).map
        (InPoly.ring [])).dedup.map InPoly.toLin).map (LinPoly.sect i)) := by
      refine (mem_store_map _ i _).mpr ⟨onePoly, ?_, rfl⟩
      rw [hfmle]
      exact List.mem_singleton.mpr rfl
    have hle := hsat.2.2 _ hone
    have hsect : LinPoly.sect i onePoly = onePoly := rfl
    rw [hsect] at hle
    norm_num [onePoly, LinPoly.eval, evalC] at hle
  · intro S' h x hsat
    unfold add_polynomial_constraint at h
    by_cases hdeg : 1 < lhs.degree
    · rw [if_pos hdeg] at h; cases h
    · rw [if_neg hdeg] at h
      cases op with
      | lt => simp [collapsedStore, Coll.add, errMap] at h
      | gt => simp [collapsedStore, Coll.add, errMap] at h
      | eq => simp [collapsedStore, Coll.add, errMap] at h
      | le =>
        simp only [collapsedStore, Coll.add, okMap] at h
        cases h
        have hone : onePoly ∈ Coll.toList (.cset
            (if lhs.toLin ∈ [onePoly] then [onePoly] else [onePoly] ++ [lhs.toLin])) := by
          split <;> simp [Coll.toList]
        have hle := hsat.2.2 _ hone
        norm_num [onePoly, LinPoly.eval, evalC] at hle
      | ge =>
        simp only [collapsedStore, Coll.add, okMap] at h
        cases h
        have hone : onePoly ∈ Coll.toList (.cset
            (if lhs.toLin.neg ∈ [onePoly] then [onePoly] else [onePoly] ++ [lhs.toLin.neg])) := by
          split <;> simp [Coll.toList]
        have hle := hsat.2.2 _ hone
        norm_num [onePoly, LinPoly.eval, evalC] at hle
      | other => cases h

/-- Witness for C6 at `n = 1`, `i = 0`, adding the non-strict constant `0 <= 0`. -/
theorem C6_witness :
    (∃ T, one_step_elimination (collapsedStore 1) 0 = .ok T ∧ ∀ x, ¬ satisfies x T) ∧
      (∀ S', add_polynomial_constraint (collapsedStore 1) (.base 0) .le = .ok S' →
        ∀ x, ¬ satisfies x S') :=
  C6_infeasible_stays 1 0 (by decide) (.base 0) .le

/-! ### The collapsed state is absorbing inside the constructor loops -/

theorem eqStep_collapse (e : InPoly) (st' : TempSt)
    (h : eqStep collapseSt e = .ok st') : st' = collapseSt := by
  cases e with
  | ring hi lin =>
    have h2 : (Except.ok collapseSt : Except PyErr TempSt) = .ok st' := h
    injection h2 with h3
    exact h3.symm
  | base c =>
    simp only [eqStep] at h
    by_cases hc : c ≠ 0
    · rw [if_pos hc] at h
      injection h with h3
      exact h3.symm
    · rw [if_neg hc] at h
      simp [collapseSt, PyColl.remove, errMap] at h

theorem ltStep_collapse (e : InPoly) (st' : TempSt)
    (h : ltStep collapseSt e = .ok st') : st' = collapseSt := by
  cases e with
  | ring hi lin =>
    have h2 : (Except.ok collapseSt : Except PyErr TempSt) = .ok st' := h
    injection h2 with h3
    exact h3.symm
  | base c =>
    simp only [ltStep] at h
    by_cases hc : (0:ℚ) ≤ c
    · rw [if_pos hc] at h
      injection h with h3
      exact h3.symm
    · rw [if_neg hc] at h
      simp [collapseSt, PyColl.remove, errMap] at h

theorem leStep_collapse (e : InPoly) (st' : TempSt)
    (h : leStep collapseSt e = .ok st') : st' = collapseSt := by
  cases e with
  | ring hi lin =>
    have h2 : (Except.ok collapseSt : Except PyErr TempSt) = .ok st' := h
    injection h2 with h3
    exact h3.symm
  | base c =>
    simp only [leStep] at h
    by_cases hc : (0:ℚ) < c
    · rw [if_pos hc] at h
      injection h with h3
      exact h3.symm
    · rw [if_neg hc] at h
      simp [collapseSt, PyColl.remove, errMap] at h

theorem foldlM_collapse (step : TempSt → InPoly → Except PyErr TempSt)
    (hco : ∀ e st', step collapseSt e = .ok st' → st' = collapseSt)
    (l : List InPoly) (st' : TempSt)
    (h : l.foldlM step collapseSt = .ok st') : st' = collapseSt := by
  induction l with
  | nil =>
    have h2 : (Except.ok collapseSt : Except PyErr TempSt) = .ok st' := h
    injection h2 with h3
    exact h3.symm
  | cons a as ih =>
    rw [List.foldlM_cons] at h
    cases hs : step collapseSt a with
    | error e => rw [hs] at h; cases h
    | ok st1 =>
      rw [hs] at h
      have hst1 := hco a st1 hs
      subst hst1
      exact ih h

theorem foldlM_trigger (step : TempSt → InPoly → Except PyErr TempSt)
    (hco : ∀ e st', step collapseSt e = .ok st' → st' = collapseSt)
    (l : List InPoly) (a : InPoly) (ha : a ∈ l)
    (htrig : ∀ st, step st a = .ok collapseSt)
    (st st' : TempSt) (h : l.foldlM step st = .ok st') : st' = collapseSt := by
  induction l generalizing st with
  | nil => cases ha
  | cons b bs ih =>
    rw [List.foldlM_cons] at h
    cases hs : step st b with
    | error e => rw [hs] at h; cases h
    | ok st1 =>
      rw [hs] at h
      rcases List.mem_cons.mp ha with rfl | ha'
      · have hcol : st1 = collapseSt := by
          have h2 := htrig st
          rw [hs] at h2
          injection h2
        subst hcol
        exact foldlM_collapse step hco bs st' h
      · exact ih ha' st1 h

/-- C2 (amended): at construction, a violated base-ring constant — a nonzero
constant equality, a `>= 0` constant strict inequality, or a `> 0` constant
non-strict inequality whose parent is not the polynomial ring — collapses the
store: whenever `__init__` returns, the result is the canonical unsatisfiable
representation `{1 <= 0}` with the equality and strict-inequality collections
cleared (to empty dicts).  No such evaluation happens at `add_*` calls, nor for
constant polynomials that belong to the polynomial ring (see the counterexample). -/
theorem C2_amended_collapse (n : ℕ) (eqL ltL leL : List InPoly) (S : LinearSystem)
    (h : init n eqL ltL leL = .ok S)
    (htrig : (∃ c : ℚ, .base c ∈ eqL ∧ c ≠ 0) ∨ (∃ c : ℚ, .base c ∈ ltL ∧ 0 ≤ c) ∨
      (∃ c : ℚ, .base c ∈ leL ∧ 0 < c)) :
    S = collapsedStore n := by
  simp only [init] at h
  by_cases hg1 : ((eqL ++ ltL ++ leL).any (fun p => decide (1 < p.degree))) = true
  · rw [if_pos hg1] at h; cases h
  · rw [if_neg hg1] at h
    by_cases hg2 : (!(eqL ++ ltL ++ leL).isEmpty &&
        !(eqL ++ ltL ++ leL).any InPoly.isRing) = true
    · rw [if_pos hg2] at h; cases h
    · rw [if_neg hg2] at h
      cases hA : eqL.dedup.foldlM eqStep
          ⟨.pset eqL.dedup, .pset ltL.dedup, .pset leL.dedup⟩ with
      | error e1 => rw [hA] at h; cases h
      | ok st1 =>
        simp only [hA, okBind] at h
        cases hB : ltL.dedup.foldlM ltStep st1 with
        | error e2 => simp only [hB] at h; cases h
        | ok st2 =>
          simp only [hB, okBind] at h
          cases hC : leL.dedup.foldlM leStep st2 with
          | error e3 => simp only [hC, errMap] at h; cases h
          | ok st3 =>
            simp only [hC, okMap] at h
            have hS : S = ⟨n, st3.te.store, st3.tl.store, st3.tle.store⟩ := by
              injection h with h2
              exact h2.symm
            have hst3 : st3 = collapseSt := by
              rcases htrig with ⟨c, hc, hc0⟩ | ⟨c, hc, hc0⟩ | ⟨c, hc, hc0⟩
              · have hst1 : st1 = collapseSt :=
                  foldlM_trigger eqStep eqStep_collapse _ _ (List.mem_dedup.mpr hc)
                    (fun st => by simp [eqStep, hc0]) _ _ hA
                subst hst1
                have hst2 : st2 = collapseSt :=
                  foldlM_collapse ltStep ltStep_collapse _ _ hB
                subst hst2
                exact foldlM_collapse leStep leStep_collapse _ _ hC
              · have hst2 : st2 = collapseSt :=
                  foldlM_trigger ltStep ltStep_collapse _ _ (List.mem_dedup.mpr hc)
                    (fun st => by simp [ltStep, hc0]) _ _ hB
                subst hst2
                exact foldlM_collapse leStep leStep_collapse _ _ hC
              · exact foldlM_trigger leStep leStep_collapse _ _ (List.mem_dedup.mpr hc)
                  (fun st => by simp [leStep, hc0]) _ _ hC
            rw [hS, hst3]
            rfl

/-- Witness for the amended C2: the constructor input `eq = [5]`,
`le = [x0]` collapses to the canonical infeasible store. -/
theorem C2_amended_witness : collapsedStore 1 = collapsedStore 1 :=
  C2_amended_collapse 1 [.base 5] [] [.ring [] ⟨[1], 0⟩] (collapsedStore 1) rfl
    (.inl ⟨5, by decide, by decide⟩)


/-! ### Only polynomial-ring elements survive the constructor loops -/

theorem init_ok_chain (n : ℕ) (eqL ltL leL : List InPoly) (S : LinearSystem)
    (h : init n eqL ltL leL = .ok S) :
    ∃ st1 st2 st3 : TempSt,
      eqL.dedup.foldlM eqStep ⟨.pset eqL.dedup, .pset ltL.dedup, .pset leL.dedup⟩ = .ok st1 ∧
      ltL.dedup.foldlM ltStep st1 = .ok st2 ∧
      leL.dedup.foldlM leStep st2 = .ok st3 ∧
      S = ⟨n, st3.te.store, st3.tl.store, st3.tle.store⟩ := by
  simp only [init] at h
  by_cases hg1 : ((eqL ++ ltL ++ leL).any (fun p => decide (1 < p.degree))) = true
  · rw [if_pos hg1] at h; cases h
  · rw [if_neg hg1] at h
    by_cases hg2 : (!(eqL ++ ltL ++ leL).isEmpty &&
        !(eqL ++ ltL ++ leL).any InPoly.isRing) = true
    · rw [if_pos hg2] at h; cases h
    · rw [if_neg hg2] at h
      cases hA : eqL.dedup.foldlM eqStep
          ⟨.pset eqL.dedup, .pset ltL.dedup, .pset leL.dedup⟩ with
      | error e1 => rw [hA] at h; cases h
      | ok st1 =>
        simp only [hA, okBind] at h
        cases hB : ltL.dedup.foldlM ltStep st1 with
        | error e2 => simp only [hB] at h; cases h
        | ok st2 =>
          simp only [hB, okBind] at h
          cases hC : leL.dedup.foldlM leStep st2 with
          | error e3 => simp only [hC, errMap] at h; cases h
          | ok st3 =>
            simp only [hC, okMap] at h
            refine ⟨st1, st2, st3, rfl, hB, hC, ?_⟩
            injection h with h2
            exact h2.symm

theorem eqFold_ring_only (l : List InPoly) :
    ∀ (q : List InPoly) (st st' : TempSt),
      st.te = .pset q → q.Nodup → (∀ e ∈ q, e.isRing = false → e ∈ l) →
      l.foldlM eqStep st = .ok st' →
      st' = collapseSt ∨
        (∃ t, st'.te = .pset t ∧ t ⊆ q ∧ (∀ e ∈ t, e.isRing = true) ∧
          st'.tl = st.tl ∧ st'.tle = st.tle) := by
  induction l with
  | nil =>
    intro q st st' hq hnd hbase h
    have h2 : (Except.ok st : Except PyErr TempSt) = .ok st' := h
    injection h2 with h3
    subst h3
    right
    refine ⟨q, hq, fun e he => he, fun e he => ?_, rfl, rfl⟩
    cases hr : e.isRing with
    | true => rfl
    | false => exact absurd (hbase e he hr) (List.not_mem_nil e)
  | cons b bs ih =>
    intro q st st' hq hnd hbase h
    rw [List.foldlM_cons] at h
    cases b with
    | ring hi lin =>
      have hs : eqStep st (.ring hi lin) = .ok st := rfl
      rw [hs] at h
      refine ih q st st' hq hnd (fun e he hr => ?_) h
      rcases List.mem_cons.mp (hbase e he hr) with h1 | h1
      · rw [h1] at hr; simp [InPoly.isRing] at hr
      · exact h1
    | base c =>
      by_cases hc : c ≠ 0
      · have hs : eqStep st (.base c) = .ok collapseSt := by simp [eqStep, hc]
        rw [hs] at h
        exact .inl (foldlM_collapse eqStep eqStep_collapse bs st' h)
      · have hs : eqStep st (.base c) =
            (st.te.remove (.base c)).map (fun t => ⟨t, st.tl, st.tle⟩) := by
          simp [eqStep, hc]
        rw [hs, hq] at h
        by_cases hm : (.base c : InPoly) ∈ q
        · rw [show PyColl.remove (.pset q) (.base c) = .ok (.pset (q.erase (.base c)))
            from by simp [PyColl.remove, hm], okMap] at h
          have hmid := ih (q.erase (.base c))
            ⟨.pset (q.erase (.base c)), st.tl, st.tle⟩ st' rfl
            (hnd.erase _) (fun e he hr => by
              obtain ⟨hne, he'⟩ := (List.Nodup.mem_erase_iff hnd).mp he
              rcases List.mem_cons.mp (hbase e he' hr) with h1 | h1
              · exact absurd h1 hne
              · exact h1) h
          rcases hmid with h1 | ⟨t, h1, h2, h3, h4, h5⟩
          · exact .inl h1
          · exact .inr ⟨t, h1, List.Subset.trans h2 (List.erase_subset _ _), h3, h4, h5⟩
        · rw [show PyColl.remove (.pset q) (.base c) = .error .keyError
            from by simp [PyColl.remove, hm], errMap] at h
          cases h

theorem ltFold_ring_only (l : List InPoly) :
    ∀ (q : List InPoly) (st st' : TempSt),
      st.tl = .pset q → q.Nodup → (∀ e ∈ q, e.isRing = false → e ∈ l) →
      l.foldlM ltStep st = .ok st' →
      st' = collapseSt ∨
        (∃ t, st'.tl = .pset t ∧ t ⊆ q ∧ (∀ e ∈ t, e.isRing = true) ∧
          st'.te = st.te ∧ st'.tle = st.tle) := by
  induction l with
  | nil =>
    intro q st st' hq hnd hbase h
    have h2 : (Except.ok st : Except PyErr TempSt) = .ok st' := h
    injection h2 with h3
    subst h3
    right
    refine ⟨q, hq, fun e he => he, fun e he => ?_, rfl, rfl⟩
    cases hr : e.isRing with
    | true => rfl
    | false => exact absurd (hbase e he hr) (List.not_mem_nil e)
  | cons b bs ih =>
    intro q st st' hq hnd hbase h
    rw [List.foldlM_cons] at h
    cases b with
    | ring hi lin =>
      have hs : ltStep st (.ring hi lin) = .ok st := rfl
      rw [hs] at h
      refine ih q st st' hq hnd (fun e he hr => ?_) h
      rcases List.mem_cons.mp (hbase e he hr) with h1 | h1
      · rw [h1] at hr; simp [InPoly.isRing] at hr
      · exact h1
    | base c =>
      by_cases hc : (0:ℚ) ≤ c
      · have hs : ltStep st (.base c) = .ok collapseSt := by simp [ltStep, hc]
        rw [hs] at h
        exact .inl (foldlM_collapse ltStep ltStep_collapse bs st' h)
      · have hs : ltStep st (.base c) =
            (st.tl.remove (.base c)).map (fun t => ⟨st.te, t, st.tle⟩) := by
          simp [ltStep, hc]
        rw [hs, hq] at h
        by_cases hm : (.base c : InPoly) ∈ q
        · rw [show PyColl.remove (.pset q) (.base c) = .ok (.pset (q.erase (.base c)))
            from by simp [PyColl.remove, hm], okMap] at h
          have hmid := ih (q.erase (.base c))
            ⟨st.te, .pset (q.erase (.base c)), st.tle⟩ st' rfl
            (hnd.erase _) (fun e he hr => by
              obtain ⟨hne, he'⟩ := (List.Nodup.mem_erase_iff hnd).mp he
              rcases List.mem_cons.mp (hbase e he' hr) with h1 | h1
              · exact absurd h1 hne
              · exact h1) h
          rcases hmid with h1 | ⟨t, h1, h2, h3, h4, h5⟩
          · exact .inl h1
          · exact .inr ⟨t, h1, List.Subset.trans h2 (List.erase_subset _ _), h3, h4, h5⟩
        · rw [show PyColl.remove (.pset q) (.base c) = .error .keyError
            from by simp [PyColl.remove, hm], errMap] at h
          cases h

theorem leFold_ring_only (l : List InPoly) :
    ∀ (q : List InPoly) (st st' : TempSt),
      st.tle = .pset q → q.Nodup → (∀ e ∈ q, e.isRing = false → e ∈ l) →
      l.foldlM leStep st = .ok st' →
      st' = collapseSt ∨
        (∃ t, st'.tle = .pset t ∧ t ⊆ q ∧ (∀ e ∈ t, e.isRing = true) ∧
          st'.te = st.te ∧ st'.tl = st.tl) := by
  induction l with
  | nil =>
    intro q st st' hq hnd hbase h
    have h2 : (Except.ok st : Except PyErr TempSt) = .ok st' := h
    injection h2 with h3
    subst h3
    right
    refine ⟨q, hq, fun e he => he, fun e he => ?_, rfl, rfl⟩
    cases hr : e.isRing with
    | true => rfl
    | false => exact absurd (hbase e he hr) (List.not_mem_nil e)
  | cons b bs ih =>
    intro q st st' hq hnd hbase h
    rw [List.foldlM_cons] at h
    cases b with
    | ring hi lin =>
      have hs : leStep st (.ring hi lin) = .ok st := rfl
      rw [hs] at h
      refine ih q st st' hq hnd (fun e he hr => ?_) h
      rcases List.mem_cons.mp (hbase e he hr) with h1 | h1
      · rw [h1] at hr; simp [InPoly.isRing] at hr
      · exact h1
    | base c =>
      by_cases hc : (0:ℚ) < c
      · have hs : leStep st (.base c) = .ok collapseSt := by simp [leStep, hc]
        rw [hs] at h
        exact .inl (foldlM_collapse leStep leStep_collapse bs st' h)
      · have hs : leStep st (.base c) =
            (st.tle.remove (.base c)).map (fun t => ⟨st.te, st.tl, t⟩) := by
          simp [leStep, hc]
        rw [hs, hq] at h
        by_cases hm : (.base c : InPoly) ∈ q
        · rw [show PyColl.remove (.pset q) (.base c) = .ok (.pset (q.erase (.base c)))
            from by simp [PyColl.remove, hm], okMap] at h
          have hmid := ih (q.erase (.base c))
            ⟨st.te, st.tl, .pset (q.erase (.base c))⟩ st' rfl
            (hnd.erase _) (fun e he hr => by
              obtain ⟨hne, he'⟩ := (List.Nodup.mem_erase_iff hnd).mp he
              rcases List.mem_cons.mp (hbase e he' hr) with h1 | h1
              · exact absurd h1 hne
              · exact h1) h
          rcases hmid with h1 | ⟨t, h1, h2, h3, h4, h5⟩
          · exact .inl h1
          · exact .inr ⟨t, h1, List.Subset.trans h2 (List.erase_subset _ _), h3, h4, h5⟩
        · rw [show PyColl.remove (.pset q) (.base c) = .error .keyError
            from by simp [PyColl.remove, hm], errMap] at h
          cases h

/-- Every constraint stored by a successful `__init__` is the linear part of a
polynomial-ring input of the matching kind, except for the collapse constant
`1 <= 0`; in particular no base-ring constant is ever stored. -/
theorem init_stored_sources (n : ℕ) (eqL ltL leL : List InPoly) (S : LinearSystem)
    (h : init n eqL ltL leL = .ok S) :
    (∀ q ∈ S.eqs.toList, ∃ hi lin, .ring hi lin ∈ eqL ∧ q = lin) ∧
    (∀ q ∈ S.lts.toList, ∃ hi lin, .ring hi lin ∈ ltL ∧ q = lin) ∧
    (∀ q ∈ S.les.toList, (∃ hi lin, .ring hi lin ∈ leL ∧ q = lin) ∨ q = onePoly) := by
  obtain ⟨st1, st2, st3, hA, hB, hC, hS⟩ := init_ok_chain n eqL ltL leL S h
  have hcolS : st3 = collapseSt →
      (∀ q ∈ S.eqs.toList, ∃ hi lin, .ring hi lin ∈ eqL ∧ q = lin) ∧
      (∀ q ∈ S.lts.toList, ∃ hi lin, .ring hi lin ∈ ltL ∧ q = lin) ∧
      (∀ q ∈ S.les.toList, (∃ hi lin, .ring hi lin ∈ leL ∧ q = lin) ∨ q = onePoly) := by
    intro hco
    rw [hS, hco]
    refine ⟨fun q hq => absurd hq (List.not_mem_nil q),
      fun q hq => absurd hq (List.not_mem_nil q), fun q hq => .inr ?_⟩
    simp only [collapseSt, PyColl.store, Coll.toList, List.map_cons, List.map_nil] at hq
    exact List.mem_singleton.mp hq
  rcases eqFold_ring_only eqL.dedup eqL.dedup
      ⟨.pset eqL.dedup, .pset ltL.dedup, .pset leL.dedup⟩ st1 rfl
      (List.nodup_dedup _) (fun e he _ => he) hA with
    h1 | ⟨t1, hte1, hsu1, hr1, htl1, htle1⟩
  · subst h1
    have hst2 : st2 = collapseSt := foldlM_collapse ltStep ltStep_collapse _ _ hB
    subst hst2
    exact hcolS (foldlM_collapse leStep leStep_collapse _ _ hC)
  · rcases ltFold_ring_only ltL.dedup ltL.dedup st1 st2 htl1
        (List.nodup_dedup _) (fun e he _ => he) hB with
      h2 | ⟨t2, htl2, hsu2, hr2, hte2, htle2⟩
    · subst h2
      exact hcolS (foldlM_collapse leStep leStep_collapse _ _ hC)
    · rcases leFold_ring_only leL.dedup leL.dedup st2 st3
          (htle2.trans htle1) (List.nodup_dedup _) (fun e he _ => he) hC with
        h3 | ⟨t3, htle3, hsu3, hr3, hte3, htl3⟩
      · exact hcolS h3
      · refine ⟨?_, ?_, ?_⟩
        · intro q hq
          rw [hS] at hq
          simp only [hte3, hte2, hte1, PyColl.store, Coll.toList] at hq
          obtain ⟨e, he, rfl⟩ := List.mem_map.mp hq
          cases e with
          | ring hi lin => exact ⟨hi, lin, List.mem_dedup.mp (hsu1 he), rfl⟩
          | base c => simpa [InPoly.isRing] using hr1 _ he
        · intro q hq
          rw [hS] at hq
          simp only [htl3, htl2, PyColl.store, Coll.toList] at hq
          obtain ⟨e, he, rfl⟩ := List.mem_map.mp hq
          cases e with
          | ring hi lin => exact ⟨hi, lin, List.mem_dedup.mp (hsu2 he), rfl⟩
          | base c => simpa [InPoly.isRing] using hr2 _ he
        · intro q hq
          rw [hS] at hq
          simp only [htle3, PyColl.store, Coll.toList] at hq
          obtain ⟨e, he, rfl⟩ := List.mem_map.mp hq
          cases e with
          | ring hi lin => exact .inl ⟨hi, lin, List.mem_dedup.mp (hsu3 he), rfl⟩
          | base c => simpa [InPoly.isRing] using hr3 _ he


/-- Concrete substitution-branch elimination: for the store `{x0 + x1 = 0}` over
two variables, eliminating `x0` yields the store `{0 = 0}` over one variable. -/
theorem subst_example :
    one_step_elimination ⟨2, .cset [⟨[1, 1], 0⟩], .cset [], .cset []⟩ 0 =
      .ok ⟨1, .cset [⟨[0], 0⟩], .cset [], .cset []⟩ := by
  rw [one_step_subst ⟨2, .cset [⟨[1, 1], 0⟩], .cset [], .cset []⟩ 0 ⟨[1, 1], 0⟩
    (by norm_num) rfl]
  norm_num [substF, subFor, LinPoly.add, LinPoly.smul, LinPoly.sub, LinPoly.X,
    LinPoly.sect, LinPoly.mc, addC, InPoly.toLin, Coll.toList, List.dedup]

/-- C5 counterexample: for the store `{x0 + x1 = 0}` over two variables,
eliminating `x0` takes the substitution branch; the equality used for solving
becomes the zero polynomial `0 = 0` after substitution, and it is *retained* in
the resulting store (its parent is the polynomial ring, so the constructor never
evaluates it) — the trivially satisfied constant is stored, not dropped. -/
theorem C5_counterexample :
    one_step_elimination ⟨2, .cset [⟨[1, 1], 0⟩], .cset [], .cset []⟩ 0 =
        .ok ⟨1, .cset [⟨[0], 0⟩], .cset [], .cset []⟩ ∧
      ∀ x : ℕ → ℚ, LinPoly.eval ⟨[0], 0⟩ x = 0 := by
  constructor
  · exact subst_example
  · intro x
    simp [LinPoly.eval, evalC]

/-- C5 (amended): at construction, trivially satisfied constant constraints
supplied as base-ring elements are dropped — every stored constraint is the
linear part of a polynomial-ring input (or the collapse constant `1`).  Constant
polynomials of the polynomial ring are stored as-is: in the substitution branch
of `one_step_elimination` the equality used to solve for the eliminated variable
becomes the zero polynomial after substitution and is retained in the resulting
store's equality set (it is identically zero, so harmless, but not dropped). -/
theorem C5_amended (n : ℕ) (eqL ltL leL : List InPoly) (S : LinearSystem)
    (S2 : LinearSystem) (i : ℕ) (e : LinPoly) (T : LinearSystem) :
    (init n eqL ltL leL = .ok S →
      ((∀ q ∈ S.eqs.toList, ∃ hi lin, .ring hi lin ∈ eqL ∧ q = lin) ∧
       (∀ q ∈ S.lts.toList, ∃ hi lin, .ring hi lin ∈ ltL ∧ q = lin) ∧
       (∀ q ∈ S.les.toList, (∃ hi lin, .ring hi lin ∈ leL ∧ q = lin) ∨ q = onePoly))) ∧
    (i < S2.n → S2.eqs.toList.find? (fun q => q.mc i != 0) = some e →
      one_step_elimination S2 i = .ok T →
      (LinPoly.sect i (substF (subFor i e) i e) ∈ T.eqs.toList ∧
        ∀ x, (substF (subFor i e) i e).eval x = 0)) := by
  constructor
  · exact init_stored_sources n eqL ltL leL S
  · intro hi hfind hE
    have hmem : e ∈ S2.eqs.toList := List.mem_of_find?_eq_some hfind
    have hc : e.mc i ≠ 0 := by
      have := List.find?_some hfind
      simpa using this
    have hzero : ∀ x, (substF (subFor i e) i e).eval x = 0 := by
      intro x
      simp only [substF, subFor, LinPoly.eval_add, LinPoly.eval_smul, LinPoly.eval_sub,
        LinPoly.eval_X]
      field_simp
      ring
    constructor
    · rw [one_step_subst S2 i e hi hfind] at hE
      injection hE with hE2
      rw [← hE2]
      exact (mem_store_map _ i _).mpr
        ⟨substF (subFor i e) i e, List.mem_map.mpr ⟨e, hmem, rfl⟩, rfl⟩
    · exact hzero

/-- Witness for the amended C5: the store `{x0 + x1 = 0}`, eliminating `x0`;
both hypotheses are discharged at this concrete input. -/
theorem C5_amended_witness :
    ((∀ q ∈ (LinearSystem.mk 2 (.cset [⟨[1, 1], 0⟩]) (.cset []) (.cset [])).eqs.toList,
        ∃ hi lin, InPoly.ring hi lin ∈ [InPoly.ring [] ⟨[1, 1], 0⟩] ∧ q = lin) ∧
      (∀ q ∈ (LinearSystem.mk 2 (.cset [⟨[1, 1], 0⟩]) (.cset []) (.cset [])).lts.toList,
        ∃ hi lin, InPoly.ring hi lin ∈ ([] : List InPoly) ∧ q = lin) ∧
      (∀ q ∈ (LinearSystem.mk 2 (.cset [⟨[1, 1], 0⟩]) (.cset []) (.cset [])).les.toList,
        (∃ hi lin, InPoly.ring hi lin ∈ ([] : List InPoly) ∧ q = lin) ∨ q = onePoly)) ∧
    (LinPoly.sect 0 (substF (subFor 0 ⟨[1, 1], 0⟩) 0 ⟨[1, 1], 0⟩) ∈
        (LinearSystem.mk 1 (.cset [⟨[0], 0⟩]) (.cset []) (.cset [])).eqs.toList ∧
      ∀ x, (substF (subFor 0 ⟨[1, 1], 0⟩) 0 ⟨[1, 1], 0⟩).eval x = 0) := by
  obtain ⟨h1, h2⟩ := C5_amended 2 [.ring [] ⟨[1, 1], 0⟩] [] []
    ⟨2, .cset [⟨[1, 1], 0⟩], .cset [], .cset []⟩
    ⟨2, .cset [⟨[1, 1], 0⟩], .cset [], .cset []⟩ 0 ⟨[1, 1], 0⟩
    ⟨1, .cset [⟨[0], 0⟩], .cset [], .cset []⟩
  exact ⟨h1 (by decide), h2 (by decide) rfl subst_example⟩


/-! ### Choosing a value between finitely many lower and upper bounds -/

theorem le_foldr_max (a : ℚ) (l : List ℚ) (b : ℚ) (hb : b ∈ l) : b ≤ l.foldr max a := by
  induction l with
  | nil => cases hb
  | cons c cs ih =>
    rw [List.foldr_cons]
    rcases List.mem_cons.mp hb with rfl | hb'
    · exact le_max_left _ _
    · exact le_trans (ih hb') (le_max_right _ _)

theorem foldr_min_le (a : ℚ) (l : List ℚ) (b : ℚ) (hb : b ∈ l) : l.foldr min a ≤ b := by
  induction l with
  | nil => cases hb
  | cons c cs ih =>
    rw [List.foldr_cons]
    rcases List.mem_cons.mp hb with rfl | hb'
    · exact min_le_left _ _
    · exact le_trans (min_le_right _ _) (ih hb')

theorem foldr_max_attained (a : ℚ) (l : List ℚ) : l.foldr max a = a ∨ l.foldr max a ∈ l := by
  induction l with
  | nil => exact .inl rfl
  | cons c cs ih =>
    rw [List.foldr_cons]
    rcases le_total c (cs.foldr max a) with h | h
    · rw [max_eq_right h]
      rcases ih with h1 | h1
      · exact .inl h1
      · exact .inr (List.mem_cons_of_mem _ h1)
    · rw [max_eq_left h]
      exact .inr (List.mem_cons_self _ _)

theorem foldr_min_attained (a : ℚ) (l : List ℚ) : l.foldr min a = a ∨ l.foldr min a ∈ l := by
  induction l with
  | nil => exact .inl rfl
  | cons c cs ih =>
    rw [List.foldr_cons]
    rcases le_total c (cs.foldr min a) with h | h
    · rw [min_eq_left h]
      exact .inr (List.mem_cons_self _ _)
    · rw [min_eq_right h]
      rcases ih with h1 | h1
      · exact .inl h1
      · exact .inr (List.mem_cons_of_mem _ h1)

/-- A rational value strictly/weakly above finitely many lower bounds and
strictly/weakly below finitely many upper bounds exists as soon as every
lower/upper pair is compatible (strictly when either side is strict).  This is
the arithmetic heart of the Fourier-Motzkin step: each bound carries a `Bool`
that is `true` when the bound is strict. -/
theorem exists_sandwich (ls us : List (ℚ × Bool))
    (h : ∀ lb ∈ ls, ∀ ub ∈ us, if lb.2 || ub.2 then lb.1 < ub.1 else lb.1 ≤ ub.1) :
    ∃ v : ℚ, (∀ lb ∈ ls, if lb.2 then lb.1 < v else lb.1 ≤ v) ∧
      (∀ ub ∈ us, if ub.2 then v < ub.1 else v ≤ ub.1) := by
  cases ls with
  | nil =>
    cases us with
    | nil =>
      exact ⟨0, fun lb hlb => absurd hlb (List.not_mem_nil _),
        fun ub hub => absurd hub (List.not_mem_nil _)⟩
    | cons u0 us' =>
      refine ⟨((u0 :: us').map Prod.fst).foldr min u0.1 - 1,
        fun lb hlb => absurd hlb (List.not_mem_nil _), fun ub hub => ?_⟩
      have hle : ((u0 :: us').map Prod.fst).foldr min u0.1 ≤ ub.1 :=
        foldr_min_le _ _ _ (List.mem_map.mpr ⟨ub, hub, rfl⟩)
      split
      · linarith
      · linarith
  | cons l0 ls' =>
    cases us with
    | nil =>
      refine ⟨((l0 :: ls').map Prod.fst).foldr max l0.1 + 1, fun lb hlb => ?_,
        fun ub hub => absurd hub (List.not_mem_nil _)⟩
      have hle : lb.1 ≤ ((l0 :: ls').map Prod.fst).foldr max l0.1 :=
        le_foldr_max _ _ _ (List.mem_map.mpr ⟨lb, hlb, rfl⟩)
      split
      · linarith
      · linarith
    | cons u0 us' =>
      have hAmem : ∃ lb ∈ l0 :: ls', lb.1 = ((l0 :: ls').map Prod.fst).foldr max l0.1 := by
        rcases foldr_max_attained l0.1 ((l0 :: ls').map Prod.fst) with h1 | h1
        · exact ⟨l0, List.mem_cons_self _ _, h1.symm⟩
        · obtain ⟨lb, hlb, hlb1⟩ := List.mem_map.mp h1
          exact ⟨lb, hlb, hlb1⟩
      have hBmem : ∃ ub ∈ u0 :: us', ub.1 = ((u0 :: us').map Prod.fst).foldr min u0.1 := by
        rcases foldr_min_attained u0.1 ((u0 :: us').map Prod.fst) with h1 | h1
        · exact ⟨u0, List.mem_cons_self _ _, h1.symm⟩
        · obtain ⟨ub, hub, hub1⟩ := List.mem_map.mp h1
          exact ⟨ub, hub, hub1⟩
      obtain ⟨lA, hlA, hlA1⟩ := hAmem
      obtain ⟨uB, huB, huB1⟩ := hBmem
      have hAB : ((l0 :: ls').map Prod.fst).foldr max l0.1 ≤
          ((u0 :: us').map Prod.fst).foldr min u0.1 := by
        have hx := h lA hlA uB huB
        rw [hlA1, huB1] at hx
        split at hx
        · exact le_of_lt hx
        · exact hx
      by_cases hstrict : ((l0 :: ls').map Prod.fst).foldr max l0.1 <
          ((u0 :: us').map Prod.fst).foldr min u0.1
      · refine ⟨(((l0 :: ls').map Prod.fst).foldr max l0.1 +
          ((u0 :: us').map Prod.fst).foldr min u0.1) / 2, fun lb hlb => ?_, fun ub hub => ?_⟩
        · have hle : lb.1 ≤ ((l0 :: ls').map Prod.fst).foldr max l0.1 :=
            le_foldr_max _ _ _ (List.mem_map.mpr ⟨lb, hlb, rfl⟩)
          split
          · linarith
          · linarith
        · have hge : ((u0 :: us').map Prod.fst).foldr min u0.1 ≤ ub.1 :=
            foldr_min_le _ _ _ (List.mem_map.mpr ⟨ub, hub, rfl⟩)
          split
          · linarith
          · linarith
      · have hEq : ((l0 :: ls').map Prod.fst).foldr max l0.1 =
            ((u0 :: us').map Prod.fst).foldr min u0.1 := le_antisymm hAB (not_lt.mp hstrict)
        refine ⟨((l0 :: ls').map Prod.fst).foldr max l0.1, fun lb hlb => ?_, fun ub hub => ?_⟩
        · have hle : lb.1 ≤ ((l0 :: ls').map Prod.fst).foldr max l0.1 :=
            le_foldr_max _ _ _ (List.mem_map.mpr ⟨lb, hlb, rfl⟩)
          cases hs : lb.2 with
          | false =>
            simp only [Bool.false_eq_true, if_false]
            exact hle
          | true =>
            rw [if_pos rfl]
            have hx := h lb hlb uB huB
            rw [hs, Bool.true_or, if_pos rfl, huB1] at hx
            linarith [hEq.le]

        · have hge : ((u0 :: us').map Prod.fst).foldr min u0.1 ≤ ub.1 :=
            foldr_min_le _ _ _ (List.mem_map.mpr ⟨ub, hub, rfl⟩)
          cases hs : ub.2 with
          | false =>
            simp only [Bool.false_eq_true, if_false]
            rw [hEq]
            exact hge
          | true =>
            rw [if_pos rfl]
            have hx := h lA hlA ub hub
            rw [hs, Bool.or_true, if_pos rfl, hlA1] at hx
            exact hx


/-! ### The single elimination step computes the projection (claim C1) -/

theorem mem_store_map2 (l : List LinPoly) (f : LinPoly → LinPoly) (i : ℕ) (p : LinPoly) :
    p ∈ ((((l.map f).map (InPoly.ring [])).dedup.map InPoly.toLin).map (LinPoly.sect i)) ↔
      ∃ q ∈ l, (f q).sect i = p := by
  rw [mem_store_map]
  constructor
  · rintro ⟨q, hq, rfl⟩
    obtain ⟨r, hr, rfl⟩ := List.mem_map.mp hq
    exact ⟨r, hr, rfl⟩
  · rintro ⟨q, hq, rfl⟩
    exact ⟨f q, List.mem_map.mpr ⟨q, hq, rfl⟩, rfl⟩

theorem elim_region_subst (S : LinearSystem) (i : ℕ) (e : LinPoly) (T : LinearSystem)
    (hi : i < S.n) (hfind : S.eqs.toList.find? (fun q => q.mc i != 0) = some e)
    (hE : one_step_elimination S i = .ok T) (x : ℕ → ℚ) :
    satisfies x T ↔ ∃ v, satisfies (insertAt i v x) S := by
  have hc : e.mc i ≠ 0 := by simpa using List.find?_some hfind
  have hmem : e ∈ S.eqs.toList := List.mem_of_find?_eq_some hfind
  have hsubmc : (subFor i e).mc i = 0 := by
    simp only [subFor, LinPoly.mc_sub, LinPoly.mc_smul, LinPoly.mc_X, if_pos rfl]
    field_simp
  have hFmc : ∀ q : LinPoly, (substF (subFor i e) i q).mc i = 0 := by
    intro q
    simp only [substF, LinPoly.mc_add, LinPoly.mc_smul, LinPoly.mc_sub, LinPoly.mc_X,
      eq_self_iff_true, if_true, hsubmc]
    ring
  have hsub_eval : ∀ v : ℚ, (subFor i e).eval (insertAt i v x) =
      ((subFor i e).sect i).eval x := by
    intro v
    rw [LinPoly.eval_insertAt, hsubmc]
    ring
  have hkey : ∀ (v : ℚ) (q : LinPoly), ((substF (subFor i e) i q).sect i).eval x =
      q.eval (insertAt i v x) + q.mc i * (((subFor i e).sect i).eval x - v) := by
    intro v q
    rw [LinPoly.eval_sect_of_mc_zero _ i v x (hFmc q)]
    have hyi : insertAt i v x i = v := by simp [insertAt]
    simp only [substF, LinPoly.eval_add, LinPoly.eval_smul, LinPoly.eval_sub, LinPoly.eval_X,
      hyi, hsub_eval v]
  rw [one_step_subst S i e hi hfind] at hE
  injection hE with hE2
  subst hE2
  constructor
  · intro hsat
    obtain ⟨hsat1, hsat2, hsat3⟩ := hsat
    refine ⟨((subFor i e).sect i).eval x, ?_, ?_, ?_⟩
    · intro q hq
      have hk := hkey (((subFor i e).sect i).eval x) q
      rw [sub_self, mul_zero, add_zero] at hk
      rw [← hk]
      exact hsat1 _ ((mem_store_map2 S.eqs.toList (substF (subFor i e) i) i _).mpr ⟨q, hq, rfl⟩)
    · intro q hq
      have hk := hkey (((subFor i e).sect i).eval x) q
      rw [sub_self, mul_zero, add_zero] at hk
      rw [← hk]
      exact hsat2 _ ((mem_store_map2 S.lts.toList (substF (subFor i e) i) i _).mpr ⟨q, hq, rfl⟩)
    · intro q hq
      have hk := hkey (((subFor i e).sect i).eval x) q
      rw [sub_self, mul_zero, add_zero] at hk
      rw [← hk]
      exact hsat3 _ ((mem_store_map2 S.les.toList (substF (subFor i e) i) i _).mpr ⟨q, hq, rfl⟩)
  · rintro ⟨v, hy1, hy2, hy3⟩
    have hyi : insertAt i v x i = v := by simp [insertAt]
    have he0 : e.eval (insertAt i v x) = 0 := hy1 e hmem
    have hv0 : ((subFor i e).sect i).eval x = v := by
      rw [← hsub_eval v]
      simp only [subFor, LinPoly.eval_sub, LinPoly.eval_smul, LinPoly.eval_X, hyi, he0]
      ring
    refine ⟨?_, ?_, ?_⟩
    · intro p hp
      obtain ⟨q, hq, rfl⟩ := (mem_store_map2 _ _ i p).mp hp
      have hk := hkey v q
      rw [hv0, sub_self, mul_zero, add_zero] at hk
      rw [hk]
      exact hy1 q hq
    · intro p hp
      obtain ⟨q, hq, rfl⟩ := (mem_store_map2 _ _ i p).mp hp
      have hk := hkey v q
      rw [hv0, sub_self, mul_zero, add_zero] at hk
      rw [hk]
      exact hy2 q hq
    · intro p hp
      obtain ⟨q, hq, rfl⟩ := (mem_store_map2 _ _ i p).mp hp
      have hk := hkey v q
      rw [hv0, sub_self, mul_zero, add_zero] at hk
      rw [hk]
      exact hy3 q hq


theorem comb_eval (i : ℕ) (l u : LinPoly) (y : ℕ → ℚ) :
    (combP i l u).eval y = u.mc i * l.eval y - l.mc i * u.eval y := by
  simp only [combP, LinPoly.eval_sub, LinPoly.eval_smul]

theorem comb_mc (i : ℕ) (l u : LinPoly) : (combP i l u).mc i = 0 := by
  simp only [combP, LinPoly.mc_sub, LinPoly.mc_smul]
  ring

theorem comb_sect_eval (i : ℕ) (l u : LinPoly) (x : ℕ → ℚ) :
    ((combP i l u).sect i).eval x =
      u.mc i * ((l.sect i).eval x) - l.mc i * ((u.sect i).eval x) := by
  rw [LinPoly.eval_sect_of_mc_zero _ i 0 x (comb_mc i l u), comb_eval,
    LinPoly.eval_insertAt, LinPoly.eval_insertAt]
  ring

theorem lowerOf_spec {i : ℕ} {l : List LinPoly} {p : LinPoly} (h : p ∈ lowerOf i l) :
    p.mc i < 0 ∧ p ∈ l := by
  obtain ⟨h1, h2⟩ := List.mem_filter.mp h
  exact ⟨of_decide_eq_true h2, h1⟩

theorem upperOf_spec {i : ℕ} {l : List LinPoly} {p : LinPoly} (h : p ∈ upperOf i l) :
    0 < p.mc i ∧ p ∈ l := by
  obtain ⟨h1, h2⟩ := List.mem_filter.mp h
  exact ⟨of_decide_eq_true h2, h1⟩

theorem zeroOf_spec {i : ℕ} {l : List LinPoly} {p : LinPoly} (h : p ∈ zeroOf i l) :
    p.mc i = 0 ∧ p ∈ l := by
  obtain ⟨h1, h2⟩ := List.mem_filter.mp h
  exact ⟨eq_of_beq h2, h1⟩

theorem mem_lowerOf {i : ℕ} {l : List LinPoly} {p : LinPoly} (hm : p ∈ l)
    (h : p.mc i < 0) : p ∈ lowerOf i l :=
  List.mem_filter.mpr ⟨hm, decide_eq_true h⟩

theorem mem_upperOf {i : ℕ} {l : List LinPoly} {p : LinPoly} (hm : p ∈ l)
    (h : 0 < p.mc i) : p ∈ upperOf i l :=
  List.mem_filter.mpr ⟨hm, decide_eq_true h⟩

theorem mem_zeroOf {i : ℕ} {l : List LinPoly} {p : LinPoly} (hm : p ∈ l)
    (h : p.mc i = 0) : p ∈ zeroOf i l :=
  List.mem_filter.mpr ⟨hm, by simp [h]⟩

theorem mem_fmLt_zero {S : LinearSystem} {i : ℕ} {q : LinPoly}
    (h : q ∈ zeroOf i S.lts.toList) : q ∈ fmLt S i :=
  List.mem_append.mpr (.inl (List.mem_append.mpr (.inl (List.mem_append.mpr (.inl h)))))

theorem mem_fmLt_lelt {S : LinearSystem} {i : ℕ} {l u : LinPoly}
    (hl : l ∈ lowerOf i S.les.toList) (hu : u ∈ upperOf i S.lts.toList) :
    combP i l u ∈ fmLt S i :=
  List.mem_append.mpr (.inl (List.mem_append.mpr (.inl (List.mem_append.mpr (.inr
    (List.mem_flatMap.mpr ⟨l, hl, List.mem_map.mpr ⟨u, hu, rfl⟩⟩))))))

theorem mem_fmLt_ltle {S : LinearSystem} {i : ℕ} {l u : LinPoly}
    (hl : l ∈ lowerOf i S.lts.toList) (hu : u ∈ upperOf i S.les.toList) :
    combP i l u ∈ fmLt S i :=
  List.mem_append.mpr (.inl (List.mem_append.mpr (.inr
    (List.mem_flatMap.mpr ⟨l, hl, List.mem_map.mpr ⟨u, hu, rfl⟩⟩))))

theorem mem_fmLt_ltlt {S : LinearSystem} {i : ℕ} {l u : LinPoly}
    (hl : l ∈ lowerOf i S.lts.toList) (hu : u ∈ upperOf i S.lts.toList) :
    combP i l u ∈ fmLt S i :=
  List.mem_append.mpr (.inr (List.mem_flatMap.mpr ⟨l, hl, List.mem_map.mpr ⟨u, hu, rfl⟩⟩))

theorem mem_fmLe_zero {S : LinearSystem} {i : ℕ} {q : LinPoly}
    (h : q ∈ zeroOf i S.les.toList) : q ∈ fmLe S i :=
  List.mem_append.mpr (.inl h)

theorem mem_fmLe_lele {S : LinearSystem} {i : ℕ} {l u : LinPoly}
    (hl : l ∈ lowerOf i S.les.toList) (hu : u ∈ upperOf i S.les.toList) :
    combP i l u ∈ fmLe S i :=
  List.mem_append.mpr (.inr (List.mem_flatMap.mpr ⟨l, hl, List.mem_map.mpr ⟨u, hu, rfl⟩⟩))

theorem elim_region_fm (S : LinearSystem) (i : ℕ) (T : LinearSystem)
    (hi : i < S.n) (hfind : S.eqs.toList.find? (fun q => q.mc i != 0) = none)
    (hE : one_step_elimination S i = .ok T) (x : ℕ → ℚ) :
    satisfies x T ↔ ∃ v, satisfies (insertAt i v x) S := by
  have heq0 : ∀ q ∈ S.eqs.toList, q.mc i = 0 := by
    intro q hq
    have h1 := List.find?_eq_none.mp hfind q hq
    simpa using h1
  rw [one_step_fm S i hi hfind] at hE
  injection hE with hE2
  subst hE2
  constructor
  · intro hsat
    obtain ⟨hsat1, hsat2, hsat3⟩ := hsat
    have hEQ : ∀ q ∈ S.eqs.toList, (q.sect i).eval x = 0 := fun q hq =>
      hsat1 _ ((mem_store_map _ i _).mpr ⟨q, hq, rfl⟩)
    have hLT : ∀ q ∈ fmLt S i, (q.sect i).eval x < 0 := fun q hq =>
      hsat2 _ ((mem_store_map _ i _).mpr ⟨q, hq, rfl⟩)
    have hLE : ∀ q ∈ fmLe S i, (q.sect i).eval x ≤ 0 := fun q hq =>
      hsat3 _ ((mem_store_map _ i _).mpr ⟨q, hq, rfl⟩)
    obtain ⟨v, hvlo, hvhi⟩ := exists_sandwich
      ((lowerOf i S.les.toList).map (fun l => ((l.sect i).eval x / (-(l.mc i)), false)) ++
        (lowerOf i S.lts.toList).map (fun l => ((l.sect i).eval x / (-(l.mc i)), true)))
      ((upperOf i S.les.toList).map (fun u => (-((u.sect i).eval x) / u.mc i, false)) ++
        (upperOf i S.lts.toList).map (fun u => (-((u.sect i).eval x) / u.mc i, true)))
      (by
        intro lb hlb ub hub
        rcases List.mem_append.mp hlb with hlb' | hlb' <;>
          obtain ⟨l, hl, rfl⟩ := List.mem_map.mp hlb' <;>
          rcases List.mem_append.mp hub with hub' | hub' <;>
          obtain ⟨u, hu, rfl⟩ := List.mem_map.mp hub'
        · obtain ⟨hlneg, hlmem⟩ := lowerOf_spec hl
          obtain ⟨hupos, humem⟩ := upperOf_spec hu
          have hcomb := hLE _ (mem_fmLe_lele hl hu)
          rw [comb_sect_eval] at hcomb
          simp only [Bool.or_self, Bool.false_eq_true, if_false]
          rw [div_le_div_iff (by linarith) hupos]
          nlinarith [hcomb]
        · obtain ⟨hlneg, hlmem⟩ := lowerOf_spec hl
          obtain ⟨hupos, humem⟩ := upperOf_spec hu
          have hcomb := hLT _ (mem_fmLt_lelt hl hu)
          rw [comb_sect_eval] at hcomb
          simp only [Bool.false_or]
          rw [if_pos trivial, div_lt_div_iff (by linarith) hupos]
          nlinarith [hcomb]
        · obtain ⟨hlneg, hlmem⟩ := lowerOf_spec hl
          obtain ⟨hupos, humem⟩ := upperOf_spec hu
          have hcomb := hLT _ (mem_fmLt_ltle hl hu)
          rw [comb_sect_eval] at hcomb
          simp only [Bool.true_or]
          rw [if_pos trivial, div_lt_div_iff (by linarith) hupos]
          nlinarith [hcomb]
        · obtain ⟨hlneg, hlmem⟩ := lowerOf_spec hl
          obtain ⟨hupos, humem⟩ := upperOf_spec hu
          have hcomb := hLT _ (mem_fmLt_ltlt hl hu)
          rw [comb_sect_eval] at hcomb
          simp only [Bool.or_self]
          rw [if_pos trivial, div_lt_div_iff (by linarith) hupos]
          nlinarith [hcomb])
    refine ⟨v, ?_, ?_, ?_⟩
    · intro q hq
      rw [← LinPoly.eval_sect_of_mc_zero q i v x (heq0 q hq)]
      exact hEQ q hq
    · intro q hq
      rcases lt_trichotomy (q.mc i) 0 with hqc | hqc | hqc
      · have hb := hvlo _ (List.mem_append.mpr (.inr
          (List.mem_map.mpr ⟨q, mem_lowerOf hq hqc, rfl⟩)))
        have hb' : (q.sect i).eval x / (-(q.mc i)) < v := by simpa using hb
        have hb2 := (div_lt_iff (by linarith)).mp hb'
        rw [LinPoly.eval_insertAt]
        linarith
      · rw [← LinPoly.eval_sect_of_mc_zero q i v x hqc]
        exact hLT q (mem_fmLt_zero (mem_zeroOf hq hqc))
      · have hb := hvhi _ (List.mem_append.mpr (.inr
          (List.mem_map.mpr ⟨q, mem_upperOf hq hqc, rfl⟩)))
        have hb' : v < -((q.sect i).eval x) / q.mc i := by simpa using hb
        have hb2 := (lt_div_iff hqc).mp hb'
        rw [LinPoly.eval_insertAt]
        linarith
    · intro q hq
      rcases lt_trichotomy (q.mc i) 0 with hqc | hqc | hqc
      · have hb := hvlo _ (List.mem_append.mpr (.inl
          (List.mem_map.mpr ⟨q, mem_lowerOf hq hqc, rfl⟩)))
        have hb' : (q.sect i).eval x / (-(q.mc i)) ≤ v := by simpa using hb
        have hb2 := (div_le_iff (by linarith)).mp hb'
        rw [LinPoly.eval_insertAt]
        linarith
      · rw [← LinPoly.eval_sect_of_mc_zero q i v x hqc]
        exact hLE q (mem_fmLe_zero (mem_zeroOf hq hqc))
      · have hb := hvhi _ (List.mem_append.mpr (.inl
          (List.mem_map.mpr ⟨q, mem_upperOf hq hqc, rfl⟩)))
        have hb' : v ≤ -((q.sect i).eval x) / q.mc i := by simpa using hb
        have hb2 := (le_div_iff hqc).mp hb'
        rw [LinPoly.eval_insertAt]
        linarith
  · rintro ⟨v, hy1, hy2, hy3⟩
    refine ⟨?_, ?_, ?_⟩
    · intro p hp
      obtain ⟨q, hq, rfl⟩ := (mem_store_map _ i p).mp hp
      rw [LinPoly.eval_sect_of_mc_zero q i v x (heq0 q hq)]
      exact hy1 q hq
    · intro p hp
      obtain ⟨q, hq, rfl⟩ := (mem_store_map _ i p).mp hp
      rcases List.mem_append.mp hq with hq1 | hq1
      · rcases List.mem_append.mp hq1 with hq2 | hq2
        · rcases List.mem_append.mp hq2 with hq3 | hq3
          · obtain ⟨hmc0, hmem0⟩ := zeroOf_spec hq3
            rw [LinPoly.eval_sect_of_mc_zero q i v x hmc0]
            exact hy2 q hmem0
          · obtain ⟨l, hl, hq4⟩ := List.mem_flatMap.mp hq3
            obtain ⟨u, hu, rfl⟩ := List.mem_map.mp hq4
            obtain ⟨hlneg, hlmem⟩ := lowerOf_spec hl
            obtain ⟨hupos, humem⟩ := upperOf_spec hu
            rw [LinPoly.eval_sect_of_mc_zero _ i v x (comb_mc i l u), comb_eval]
            have h1 := hy3 l hlmem
            have h2 := hy2 u humem
            nlinarith [h1, h2]
        · obtain ⟨l, hl, hq4⟩ := List.mem_flatMap.mp hq2
          obtain ⟨u, hu, rfl⟩ := List.mem_map.mp hq4
          obtain ⟨hlneg, hlmem⟩ := lowerOf_spec hl
          obtain ⟨hupos, humem⟩ := upperOf_spec hu
          rw [LinPoly.eval_sect_of_mc_zero _ i v x (comb_mc i l u), comb_eval]
          have h1 := hy2 l hlmem
          have h2 := hy3 u humem
          nlinarith [h1, h2]
      · obtain ⟨l, hl, hq4⟩ := List.mem_flatMap.mp hq1
        obtain ⟨u, hu, rfl⟩ := List.mem_map.mp hq4
        obtain ⟨hlneg, hlmem⟩ := lowerOf_spec hl
        obtain ⟨hupos, humem⟩ := upperOf_spec hu
        rw [LinPoly.eval_sect_of_mc_zero _ i v x (comb_mc i l u), comb_eval]
        have h1 := hy2 l hlmem
        have h2 := hy2 u humem
        nlinarith [h1, h2]
    · intro p hp
      obtain ⟨q, hq, rfl⟩ := (mem_store_map _ i p).mp hp
      rcases List.mem_append.mp hq with hq1 | hq1
      · obtain ⟨hmc0, hmem0⟩ := zeroOf_spec hq1
        rw [LinPoly.eval_sect_of_mc_zero q i v x hmc0]
        exact hy3 q hmem0
      · obtain ⟨l, hl, hq4⟩ := List.mem_flatMap.mp hq1
        obtain ⟨u, hu, rfl⟩ := List.mem_map.mp hq4
        obtain ⟨hlneg, hlmem⟩ := lowerOf_spec hl
        obtain ⟨hupos, humem⟩ := upperOf_spec hu
        rw [LinPoly.eval_sect_of_mc_zero _ i v x (comb_mc i l u), comb_eval]
        have h1 := hy3 l hlmem
        have h2 := hy3 u humem
        nlinarith [h1, h2]


theorem elim_region (S : LinearSystem) (i : ℕ) (T : LinearSystem)
    (hi : i < S.n) (hE : one_step_elimination S i = .ok T) (x : ℕ → ℚ) :
    satisfies x T ↔ ∃ v, satisfies (insertAt i v x) S := by
  cases hfind : S.eqs.toList.find? (fun q => q.mc i != 0) with
  | some e => exact elim_region_subst S i e T hi hfind hE x
  | none => exact elim_region_fm S i T hi hfind hE x

/-- C1: for every store and every in-range variable index, the store returned by
`one_step_elimination` represents exactly the projection of the input region: an
assignment `x` of the remaining variables satisfies the result iff there exists a
value `v` for the eliminated variable such that the assignment obtained by
inserting `v` at the eliminated position satisfies every equality, strict
inequality and non-strict inequality of the input store (substitution branch when
an equality has nonzero coefficient on the variable, Fourier-Motzkin pairwise
combination otherwise). -/
theorem C1_projection (S : LinearSystem) (i : ℕ) (T : LinearSystem)
    (hi : i < S.n) (hE : one_step_elimination S i = .ok T) (x : ℕ → ℚ) :
    satisfies x T ↔ ∃ v, satisfies (insertAt i v x) S :=
  elim_region S i T hi hE x

/-- Witness for C1: eliminating `x0` from the store `{x1 < 0}` over two
variables gives the store `{x0 < 0}` over one variable. -/
theorem C1_witness :
    satisfies (fun _ => 0) ⟨1, .cset [], .cset [⟨[1], 0⟩], .cset []⟩ ↔
      ∃ v, satisfies (insertAt 0 v (fun _ => 0))
        ⟨2, .cset [], .cset [⟨[0, 1], 0⟩], .cset []⟩ :=
  C1_projection ⟨2, .cset [], .cset [⟨[0, 1], 0⟩], .cset []⟩ 0
    ⟨1, .cset [], .cset [⟨[1], 0⟩], .cset []⟩ (by decide) (by decide) (fun _ => 0)

/-- Concrete Fourier-Motzkin elimination: for the store
`{-x0 < 0, x0 <= 0}` over one variable, eliminating `x0` combines the strict
lower bound with the non-strict upper bound into the strict constraint `0 < 0`
over the empty ring. -/
theorem fm_example :
    one_step_elimination ⟨1, .cset [], .cset [⟨[-1], 0⟩], .cset [⟨[1], 0⟩]⟩ 0 =
      .ok ⟨0, .cset [], .cset [⟨[], 0⟩], .cset []⟩ := by
  rw [one_step_fm ⟨1, .cset [], .cset [⟨[-1], 0⟩], .cset [⟨[1], 0⟩]⟩ 0 (by decide) rfl]
  norm_num [fmLt, fmLe, zeroOf, lowerOf, upperOf, combP, LinPoly.smul, LinPoly.sub,
    LinPoly.add, LinPoly.mc, LinPoly.sect, addC, InPoly.toLin, Coll.toList, List.dedup]

/-- C4: in the Fourier-Motzkin branch of `one_step_elimination`, every
lower/upper combination involving at least one strict inequality lands in the
strict set of the result, every combination of two non-strict inequalities lands
in the non-strict set, and constraints with zero coefficient on the eliminated
variable are carried through into their original kind. -/
theorem C4_strictness (S : LinearSystem) (i : ℕ) (T : LinearSystem)
    (hi : i < S.n) (hfind : S.eqs.toList.find? (fun q => q.mc i != 0) = none)
    (hE : one_step_elimination S i = .ok T) :
    (∀ l ∈ S.les.toList, l.mc i < 0 → ∀ u ∈ S.lts.toList, 0 < u.mc i →
      (combP i l u).sect i ∈ T.lts.toList) ∧
    (∀ l ∈ S.lts.toList, l.mc i < 0 → ∀ u ∈ S.les.toList, 0 < u.mc i →
      (combP i l u).sect i ∈ T.lts.toList) ∧
    (∀ l ∈ S.lts.toList, l.mc i < 0 → ∀ u ∈ S.lts.toList, 0 < u.mc i →
      (combP i l u).sect i ∈ T.lts.toList) ∧
    (∀ l ∈ S.les.toList, l.mc i < 0 → ∀ u ∈ S.les.toList, 0 < u.mc i →
      (combP i l u).sect i ∈ T.les.toList) ∧
    (∀ p ∈ S.lts.toList, p.mc i = 0 → p.sect i ∈ T.lts.toList) ∧
    (∀ p ∈ S.les.toList, p.mc i = 0 → p.sect i ∈ T.les.toList) := by
  rw [one_step_fm S i hi hfind] at hE
  injection hE with hE2
  subst hE2
  refine ⟨?_, ?_, ?_, ?_, ?_, ?_⟩
  · intro l hl hlc u hu huc
    exact (mem_store_map _ i _).mpr
      ⟨_, mem_fmLt_lelt (mem_lowerOf hl hlc) (mem_upperOf hu huc), rfl⟩
  · intro l hl hlc u hu huc
    exact (mem_store_map _ i _).mpr
      ⟨_, mem_fmLt_ltle (mem_lowerOf hl hlc) (mem_upperOf hu huc), rfl⟩
  · intro l hl hlc u hu huc
    exact (mem_store_map _ i _).mpr
      ⟨_, mem_fmLt_ltlt (mem_lowerOf hl hlc) (mem_upperOf hu huc), rfl⟩
  · intro l hl hlc u hu huc
    exact (mem_store_map _ i _).mpr
      ⟨_, mem_fmLe_lele (mem_lowerOf hl hlc) (mem_upperOf hu huc), rfl⟩
  · intro p hp hpc
    exact (mem_store_map _ i _).mpr ⟨_, mem_fmLt_zero (mem_zeroOf hp hpc), rfl⟩
  · intro p hp hpc
    exact (mem_store_map _ i _).mpr ⟨_, mem_fmLe_zero (mem_zeroOf hp hpc), rfl⟩

/-- Witness for C4 at the store `{-x0 < 0, x0 <= 0}`, eliminating `x0` (the
hypotheses of the claim theorem are discharged at this concrete input). -/
theorem C4_witness :
    (∀ l ∈ (Coll.cset ([⟨[1], 0⟩] : List LinPoly)).toList, l.mc 0 < 0 →
      ∀ u ∈ (Coll.cset ([⟨[-1], 0⟩] : List LinPoly)).toList, 0 < u.mc 0 →
      (combP 0 l u).sect 0 ∈ (Coll.cset ([⟨[], 0⟩] : List LinPoly)).toList) ∧
    (∀ l ∈ (Coll.cset ([⟨[-1], 0⟩] : List LinPoly)).toList, l.mc 0 < 0 →
      ∀ u ∈ (Coll.cset ([⟨[1], 0⟩] : List LinPoly)).toList, 0 < u.mc 0 →
      (combP 0 l u).sect 0 ∈ (Coll.cset ([⟨[], 0⟩] : List LinPoly)).toList) ∧
    (∀ l ∈ (Coll.cset ([⟨[-1], 0⟩] : List LinPoly)).toList, l.mc 0 < 0 →
      ∀ u ∈ (Coll.cset ([⟨[-1], 0⟩] : List LinPoly)).toList, 0 < u.mc 0 →
      (combP 0 l u).sect 0 ∈ (Coll.cset ([⟨[], 0⟩] : List LinPoly)).toList) ∧
    (∀ l ∈ (Coll.cset ([⟨[1], 0⟩] : List LinPoly)).toList, l.mc 0 < 0 →
      ∀ u ∈ (Coll.cset ([⟨[1], 0⟩] : List LinPoly)).toList, 0 < u.mc 0 →
      (combP 0 l u).sect 0 ∈ (Coll.cset ([] : List LinPoly)).toList) ∧
    (∀ p ∈ (Coll.cset ([⟨[-1], 0⟩] : List LinPoly)).toList, p.mc 0 = 0 →
      p.sect 0 ∈ (Coll.cset ([⟨[], 0⟩] : List LinPoly)).toList) ∧
    (∀ p ∈ (Coll.cset ([⟨[1], 0⟩] : List LinPoly)).toList, p.mc 0 = 0 →
      p.sect 0 ∈ (Coll.cset ([] : List LinPoly)).toList) :=
  C4_strictness ⟨1, .cset [], .cset [⟨[-1], 0⟩], .cset [⟨[1], 0⟩]⟩ 0
    ⟨0, .cset [], .cset [⟨[], 0⟩], .cset []⟩ (by decide) rfl fm_example


/-! ### Index bookkeeping of the projection driver (claims C8 and C3) -/

theorem countP_lt_toFinset (done : List ℕ) (hnd : done.Nodup) (k : ℕ) :
    done.countP (fun d => decide (d < k)) = (done.toFinset.filter (fun d => d < k)).card := by
  rw [List.countP_eq_length_filter]
  rw [← List.toFinset_card_of_nodup (hnd.filter _)]
  congr 1
  ext a
  simp [List.mem_filter]

theorem countP_lt_le_self (done : List ℕ) (hnd : done.Nodup) (k : ℕ) :
    done.countP (fun d => decide (d < k)) ≤ k := by
  rw [countP_lt_toFinset done hnd k]
  calc (done.toFinset.filter (fun d => d < k)).card ≤ (Finset.range k).card := by
        apply Finset.card_le_card
        intro a ha
        obtain ⟨-, h2⟩ := Finset.mem_filter.mp ha
        exact Finset.mem_range.mpr h2
    _ = k := Finset.card_range k

theorem countP_lt_mono_bound (done : List ℕ) (hnd : done.Nodup) (t r : ℕ)
    (ht : t ∉ done) (htr : t < r) :
    done.countP (fun d => decide (d < r)) ≤
      done.countP (fun d => decide (d < t)) + (r - t - 1) := by
  rw [countP_lt_toFinset done hnd r, countP_lt_toFinset done hnd t]
  have hsub : done.toFinset.filter (fun d => d < r) ⊆
      done.toFinset.filter (fun d => d < t) ∪ Finset.Ioo t r := by
    intro a ha
    obtain ⟨haD, haR⟩ := Finset.mem_filter.mp ha
    by_cases hat : a < t
    · exact Finset.mem_union_left _ (Finset.mem_filter.mpr ⟨haD, hat⟩)
    · refine Finset.mem_union_right _ (Finset.mem_Ioo.mpr ⟨?_, haR⟩)
      have hne : a ≠ t := by
        rintro rfl
        exact ht (List.mem_toFinset.mp haD)
      omega
  calc (done.toFinset.filter (fun d => d < r)).card ≤
      (done.toFinset.filter (fun d => d < t) ∪ Finset.Ioo t r).card :=
        Finset.card_le_card hsub
    _ ≤ (done.toFinset.filter (fun d => d < t)).card + (Finset.Ioo t r).card :=
        Finset.card_union_le _ _
    _ = (done.toFinset.filter (fun d => d < t)).card + (r - t - 1) := by rw [Nat.card_Ioo]

theorem length_le_countP_add (done : List ℕ) (hnd : done.Nodup) (t n0 : ℕ)
    (ht : t ∉ done) (hall : ∀ d ∈ done, d < n0) (htn : t < n0) :
    done.length ≤ done.countP (fun d => decide (d < t)) + (n0 - t - 1) := by
  rw [countP_lt_toFinset done hnd t, ← List.toFinset_card_of_nodup hnd]
  have hsub : done.toFinset ⊆ done.toFinset.filter (fun d => d < t) ∪ Finset.Ioo t n0 := by
    intro a ha
    by_cases hat : a < t
    · exact Finset.mem_union_left _ (Finset.mem_filter.mpr ⟨ha, hat⟩)
    · refine Finset.mem_union_right _ (Finset.mem_Ioo.mpr ⟨?_, hall a (List.mem_toFinset.mp ha)⟩)
      have hne : a ≠ t := by
        rintro rfl
        exact ht (List.mem_toFinset.mp ha)
      omega
  calc done.toFinset.card ≤
      (done.toFinset.filter (fun d => d < t) ∪ Finset.Ioo t n0).card :=
        Finset.card_le_card hsub
    _ ≤ (done.toFinset.filter (fun d => d < t)).card + (Finset.Ioo t n0).card :=
        Finset.card_union_le _ _
    _ = (done.toFinset.filter (fun d => d < t)).card + (n0 - t - 1) := by rw [Nat.card_Ioo]

theorem currentIndex_lt_of_lt (done : List ℕ) (hnd : done.Nodup) (t r : ℕ)
    (ht : t ∉ done) (htr : t < r) : currentIndex done t < currentIndex done r := by
  unfold currentIndex
  have h1 := countP_lt_le_self done hnd t
  have h2 := countP_lt_mono_bound done hnd t r ht htr
  omega

theorem currentIndex_lt_iff (done : List ℕ) (hnd : done.Nodup) (t r : ℕ)
    (ht : t ∉ done) (hr : r ∉ done) (hrt : r ≠ t) :
    currentIndex done t < currentIndex done r ↔ t < r := by
  constructor
  · intro h
    by_contra hc
    have hlt : r < t := by omega
    exact absurd (currentIndex_lt_of_lt done hnd r t hr hlt) (by omega)
  · exact currentIndex_lt_of_lt done hnd t r ht

theorem currentIndex_ne (done : List ℕ) (hnd : done.Nodup) (t r : ℕ)
    (ht : t ∉ done) (hr : r ∉ done) (hrt : r ≠ t) :
    currentIndex done t ≠ currentIndex done r := by
  rcases Nat.lt_or_ge t r with h | h
  · exact Nat.ne_of_lt (currentIndex_lt_of_lt done hnd t r ht h)
  · have hlt : r < t := by omega
    exact (Nat.ne_of_lt (currentIndex_lt_of_lt done hnd r t hr hlt)).symm

theorem currentIndex_step (done : List ℕ) (t r : ℕ) (hnd : done.Nodup)
    (ht : t ∉ done) (hr : r ∉ done) (hrt : r ≠ t) :
    (if currentIndex done t < currentIndex done r then currentIndex done r - 1
      else currentIndex done r) = currentIndex (done ++ [t]) r := by
  have hiff := currentIndex_lt_iff done hnd t r ht hr hrt
  have happ : currentIndex (done ++ [t]) r =
      r - (done.countP (fun d => decide (d < r)) + if t < r then 1 else 0) := by
    unfold currentIndex
    rw [List.countP_append]
    congr 1
    simp [List.countP_cons]
  by_cases htr : t < r
  · rw [if_pos (hiff.mpr htr), happ, if_pos htr]
    unfold currentIndex
    omega
  · rw [if_neg (fun hcon => htr (hiff.mp hcon)), happ, if_neg htr]
    unfold currentIndex
    omega

theorem currentIndex_lt_n (done : List ℕ) (t n0 : ℕ) (S : LinearSystem)
    (hn : S.n = n0 - done.length) (hnd : done.Nodup) (ht : t ∉ done)
    (htn : t < n0) (hall : ∀ d ∈ done, d < n0) :
    currentIndex done t < S.n := by
  unfold currentIndex
  rw [hn]
  have h1 := countP_lt_le_self done hnd t
  have h2 := length_le_countP_add done hnd t n0 ht hall htn
  omega

theorem projLoop_cons (S : LinearSystem) (p : ℕ) (rest : List ℕ) :
    projLoop S (p :: rest) = (one_step_elimination S p).bind
      (fun S' => projLoop S' (rest.map (fun q => if p < q then q - 1 else q))) := by
  rw [projLoop]

theorem projectNamed_cons (S : LinearSystem) (t : ℕ) (rest done : List ℕ) :
    projectNamed S (t :: rest) done = (one_step_elimination S (currentIndex done t)).bind
      (fun S' => projectNamed S' rest (done ++ [t])) := rfl

theorem append_swap_perm (t : ℕ) (rest done : List ℕ) :
    ((t :: rest) ++ done).Perm (rest ++ (done ++ [t])) := by
  rw [List.cons_append]
  calc (t :: (rest ++ done)).Perm ((rest ++ done) ++ [t]) :=
        (List.perm_append_singleton t (rest ++ done)).symm
    _ = rest ++ (done ++ [t]) := List.append_assoc rest done [t]

theorem projLoop_eq_projectNamed (ts : List ℕ) :
    ∀ (done : List ℕ) (S : LinearSystem), (ts ++ done).Nodup →
      projLoop S (ts.map (currentIndex done)) = projectNamed S ts done := by
  induction ts with
  | nil =>
    intro done S _
    rw [List.map_nil, projLoop]
    rfl
  | cons t rest ih =>
    intro done S hnd
    have hnd' : (t :: (rest ++ done)).Nodup := by rwa [List.cons_append] at hnd
    have htmem : t ∉ rest ++ done := (List.nodup_cons.mp hnd').1
    have hrd : (rest ++ done).Nodup := (List.nodup_cons.mp hnd').2
    obtain ⟨hndr, hndd, hdisj⟩ := List.nodup_append.mp hrd
    rw [List.map_cons, projLoop_cons, projectNamed_cons]
    congr 1
    funext S'
    rw [← ih (done ++ [t]) S' ((append_swap_perm t rest done).nodup hnd)]
    congr 1
    rw [List.map_map]
    apply List.map_congr_left
    intro r hrmem
    have hrne : r ≠ t := fun h => (htmem (List.mem_append_left done (h ▸ hrmem)))
    have hrdone : r ∉ done := fun h => hdisj hrmem h
    have htdone : t ∉ done := fun h => htmem (List.mem_append_right rest h)
    exact currentIndex_step done t r hndd htdone hrdone hrne


theorem coordinate_projection_eq_named (S : LinearSystem) (ts : List ℕ)
    (hnd : ts.Nodup) (hv : ∀ t ∈ ts, t < S.n) :
    coordinate_projection S ts = projectNamed S ts [] := by
  have hmain := projLoop_eq_projectNamed ts [] S (by simpa using hnd)
  have h0 : ts.map (currentIndex []) = ts := by
    have hc : ∀ t ∈ ts, currentIndex [] t = id t := by
      intro t _
      simp [currentIndex]
    rw [List.map_congr_left hc, List.map_id]
  rw [h0] at hmain
  unfold coordinate_projection
  rw [if_pos ?hcond]
  · exact hmain
  case hcond =>
    rw [List.all_eq_true]
    intro t ht
    exact decide_eq_true (hv t ht)

/-- C8: `coordinate_projection` resolves every target against the original ring
once (the initial current-index list is the target list itself), then after each
single-variable elimination decrements every remaining resolved index strictly
greater than the index just removed; therefore, for distinct in-range targets,
the driver result equals the sequential composition of `one_step_elimination`
applied to each named variable, re-resolved against the current ring, in the
caller-given order (`projectNamed`). -/
theorem C8_driver (S : LinearSystem) (ts : List ℕ)
    (hnd : ts.Nodup) (hv : ∀ t ∈ ts, t < S.n) :
    coordinate_projection S ts = projectNamed S ts [] :=
  coordinate_projection_eq_named S ts hnd hv

theorem C8_witness :
    coordinate_projection (⟨2, .cset [], .cset [], .cset []⟩ : LinearSystem) [1, 0] =
      projectNamed ⟨2, .cset [], .cset [], .cset []⟩ [1, 0] [] :=
  C8_driver ⟨2, .cset [], .cset [], .cset []⟩ [1, 0] (by decide) (by decide)


/-! ### Permutation invariance of the projected region (claim C3) -/

theorem errBind {ε α β : Type} (e : ε) (f : α → Except ε β) :
    (Except.error e : Except ε α).bind f = .error e := rfl

theorem nodup_snoc (done : List ℕ) (t : ℕ) (hnd : done.Nodup) (ht : t ∉ done) :
    (done ++ [t]).Nodup := by
  rw [List.nodup_append]
  refine ⟨hnd, List.nodup_singleton t, ?_⟩
  intro a ha hmem
  rw [List.mem_singleton] at hmem
  exact ht (hmem ▸ ha)

theorem insertAt_comm_lt (t u : ℕ) (htu : t < u) (v w : ℚ) (x : ℕ → ℚ) :
    insertAt t v (insertAt (u - 1) w x) = insertAt u w (insertAt t v x) := by
  funext j
  simp only [insertAt]
  split_ifs <;> first | rfl | (congr 1; omega) | (exfalso; omega)

theorem insertAt_comm (t u : ℕ) (htu : t ≠ u) (v w : ℚ) (x : ℕ → ℚ) :
    insertAt t v (insertAt (if t < u then u - 1 else u) w x) =
      insertAt u w (insertAt (if u < t then t - 1 else t) v x) := by
  rcases Nat.lt_or_ge t u with h | h
  · rw [if_pos h, if_neg (by omega)]
    exact insertAt_comm_lt t u h v w x
  · have h2 : u < t := by omega
    rw [if_neg (by omega), if_pos h2]
    exact (insertAt_comm_lt u t h2 w v x).symm

theorem projectNamed_ok (ts : List ℕ) :
    ∀ (done : List ℕ) (S : LinearSystem) (n0 : ℕ),
      S.n = n0 - done.length → (ts ++ done).Nodup →
      (∀ t ∈ ts, t < n0) → (∀ d ∈ done, d < n0) →
      ∃ T, projectNamed S ts done = .ok T := by
  induction ts with
  | nil => intro done S n0 _ _ _ _; exact ⟨S, rfl⟩
  | cons t rest ih =>
    intro done S n0 hn hnd hts hdone
    have hnd0 := hnd
    rw [List.cons_append, List.nodup_cons] at hnd
    obtain ⟨htmem, hrd⟩ := hnd
    obtain ⟨hndr, hndd, hdisj⟩ := List.nodup_append.mp hrd
    have htdone : t ∉ done := fun h => htmem (List.mem_append_right rest h)
    have htn : t < n0 := hts t (List.mem_cons_self t rest)
    have hlt : currentIndex done t < S.n :=
      currentIndex_lt_n done t n0 S hn hndd htdone htn hdone
    obtain ⟨T1, hT1⟩ := one_step_ok S _ hlt
    rw [projectNamed_cons, hT1]
    simp only [okBind]
    refine ih (done ++ [t]) T1 n0 ?_ ((append_swap_perm t rest done).nodup hnd0) ?_ ?_
    · rw [one_step_n S _ T1 hT1, hn, List.length_append, List.length_singleton]
      omega
    · exact fun r hr => hts r (List.mem_cons_of_mem t hr)
    · intro d hd
      rcases List.mem_append.mp hd with h | h
      · exact hdone d h
      · rw [List.mem_singleton.mp h]
        exact htn

theorem projectNamed_req (ts : List ℕ) :
    ∀ (d1 d2 : List ℕ) (S1 S2 : LinearSystem), d1.Perm d2 → S1.n = S2.n →
      (∀ x, satisfies x S1 ↔ satisfies x S2) →
      (∃ er, projectNamed S1 ts d1 = .error er ∧ projectNamed S2 ts d2 = .error er) ∨
      (∃ T1 T2, projectNamed S1 ts d1 = .ok T1 ∧ projectNamed S2 ts d2 = .ok T2 ∧
        T1.n = T2.n ∧ ∀ x, satisfies x T1 ↔ satisfies x T2) := by
  induction ts with
  | nil =>
    intro d1 d2 S1 S2 _ hn hreg
    exact Or.inr ⟨S1, S2, rfl, rfl, hn, hreg⟩
  | cons t rest ih =>
    intro d1 d2 S1 S2 hperm hn hreg
    have hidx : currentIndex d2 t = currentIndex d1 t := by
      unfold currentIndex
      rw [hperm.countP_eq]
    rw [projectNamed_cons, projectNamed_cons, hidx]
    by_cases hlt : currentIndex d1 t < S1.n
    · obtain ⟨T1, hT1⟩ := one_step_ok S1 _ hlt
      obtain ⟨T2, hT2⟩ := one_step_ok S2 _ (hn ▸ hlt)
      rw [hT1, hT2]
      simp only [okBind]
      have hn12 : T1.n = T2.n := by
        rw [one_step_n S1 _ T1 hT1, one_step_n S2 _ T2 hT2, hn]
      have hreg12 : ∀ x, satisfies x T1 ↔ satisfies x T2 := by
        intro x
        rw [elim_region S1 _ T1 hlt hT1 x, elim_region S2 _ T2 (hn ▸ hlt) hT2 x]
        exact exists_congr fun v => hreg _
      exact ih (d1 ++ [t]) (d2 ++ [t]) T1 T2 (hperm.append_right [t]) hn12 hreg12
    · push_neg at hlt
      rw [one_step_err S1 _ hlt, one_step_err S2 _ (by omega), errBind, errBind]
      exact Or.inl ⟨.elimVarError, rfl, rfl⟩


theorem projectNamed_perm {ts ts2 : List ℕ} (hperm : ts.Perm ts2) :
    ∀ (done : List ℕ) (S : LinearSystem) (n0 : ℕ),
      S.n = n0 - done.length → (ts ++ done).Nodup →
      (∀ t ∈ ts, t < n0) → (∀ d ∈ done, d < n0) →
      ∃ T T2, projectNamed S ts done = .ok T ∧ projectNamed S ts2 done = .ok T2 ∧
        T.n = T2.n ∧ ∀ x, satisfies x T ↔ satisfies x T2 := by
  induction hperm with
  | nil =>
    intro done S n0 _ _ _ _
    exact ⟨S, S, rfl, rfl, rfl, fun x => Iff.rfl⟩
  | cons t hrest ih =>
    intro done S n0 hn hnd hts hdone
    have hnd0 := hnd
    rw [List.cons_append, List.nodup_cons] at hnd
    obtain ⟨htmem, hrd⟩ := hnd
    obtain ⟨hndr, hndd, hdisj⟩ := List.nodup_append.mp hrd
    have htdone : t ∉ done := fun h => htmem (List.mem_append_right _ h)
    have htn : t < n0 := hts t (List.mem_cons_self t _)
    have hlt : currentIndex done t < S.n :=
      currentIndex_lt_n done t n0 S hn hndd htdone htn hdone
    obtain ⟨T1, hT1⟩ := one_step_ok S _ hlt
    rw [projectNamed_cons, projectNamed_cons, hT1]
    simp only [okBind]
    refine ih (done ++ [t]) T1 n0 ?_ ((append_swap_perm t _ done).nodup hnd0) ?_ ?_
    · rw [one_step_n S _ T1 hT1, hn, List.length_append, List.length_singleton]
      omega
    · exact fun r hr => hts r (List.mem_cons_of_mem t hr)
    · intro d hd
      rcases List.mem_append.mp hd with h | h
      · exact hdone d h
      · rw [List.mem_singleton.mp h]
        exact htn
  | swap x y l =>
    intro done S n0 hn hnd hts hdone
    have hnd0 := hnd
    rw [List.cons_append, List.cons_append, List.nodup_cons, List.nodup_cons] at hnd
    obtain ⟨hy, hx, hld⟩ := hnd
    have hyx : y ≠ x := fun h => hy (h ▸ List.mem_cons_self x _)
    have hydone : y ∉ done := fun h => hy (List.mem_cons_of_mem x (List.mem_append_right l h))
    have hxdone : x ∉ done := fun h => hx (List.mem_append_right l h)
    have hndd : done.Nodup := (List.nodup_append.mp hld).2.1
    have hyn : y < n0 := hts y (List.mem_cons_self y _)
    have hxn : x < n0 := hts x (List.mem_cons_of_mem y (List.mem_cons_self x l))
    have hylt : currentIndex done y < S.n :=
      currentIndex_lt_n done y n0 S hn hndd hydone hyn hdone
    have hxlt : currentIndex done x < S.n :=
      currentIndex_lt_n done x n0 S hn hndd hxdone hxn hdone
    obtain ⟨A, hA⟩ := one_step_ok S (currentIndex done y) hylt
    obtain ⟨B, hB⟩ := one_step_ok S (currentIndex done x) hxlt
    have hAn : A.n = S.n - 1 := one_step_n S _ A hA
    have hBn : B.n = S.n - 1 := one_step_n S _ B hB
    have hcx2 := currentIndex_step done y x hndd hydone hxdone hyx.symm
    have hcy2 := currentIndex_step done x y hndd hxdone hydone hyx
    have hxlt2 : currentIndex (done ++ [y]) x < A.n := by
      refine currentIndex_lt_n (done ++ [y]) x n0 A ?_ (nodup_snoc done y hndd hydone) ?_ hxn ?_
      · rw [hAn, hn, List.length_append, List.length_singleton]
        omega
      · intro h
        rcases List.mem_append.mp h with h2 | h2
        · exact hxdone h2
        · exact hyx (List.mem_singleton.mp h2).symm
      · intro d hd
        rcases List.mem_append.mp hd with h2 | h2
        · exact hdone d h2
        · rw [List.mem_singleton.mp h2]
          exact hyn
    have hylt2 : currentIndex (done ++ [x]) y < B.n := by
      refine currentIndex_lt_n (done ++ [x]) y n0 B ?_ (nodup_snoc done x hndd hxdone) ?_ hyn ?_
      · rw [hBn, hn, List.length_append, List.length_singleton]
        omega
      · intro h
        rcases List.mem_append.mp h with h2 | h2
        · exact hydone h2
        · exact hyx (List.mem_singleton.mp h2)
      · intro d hd
        rcases List.mem_append.mp hd with h2 | h2
        · exact hdone d h2
        · rw [List.mem_singleton.mp h2]
          exact hxn
    obtain ⟨A2, hA2⟩ := one_step_ok A (currentIndex (done ++ [y]) x) hxlt2
    obtain ⟨B2, hB2⟩ := one_step_ok B (currentIndex (done ++ [x]) y) hylt2
    have hA2n : A2.n = A.n - 1 := one_step_n A _ A2 hA2
    have hB2n : B2.n = B.n - 1 := one_step_n B _ B2 hB2
    have hn2 : A2.n = B2.n := by rw [hA2n, hB2n, hAn, hBn]
    have hne : currentIndex done y ≠ currentIndex done x :=
      currentIndex_ne done hndd y x hydone hxdone hyx.symm
    have hkey : ∀ (z : ℕ → ℚ) (v w : ℚ),
        insertAt (currentIndex done y) v (insertAt (currentIndex (done ++ [y]) x) w z) =
          insertAt (currentIndex done x) w (insertAt (currentIndex (done ++ [x]) y) v z) := by
      intro z v w
      rw [← hcx2, ← hcy2]
      exact insertAt_comm _ _ hne v w z
    have hreg2 : ∀ z, satisfies z A2 ↔ satisfies z B2 := by
      intro z
      rw [elim_region A _ A2 hxlt2 hA2 z, elim_region B _ B2 hylt2 hB2 z]
      constructor
      · rintro ⟨w, hw⟩
        obtain ⟨v, hv⟩ := (elim_region S _ A hylt hA _).mp hw
        rw [hkey z v w] at hv
        exact ⟨v, (elim_region S _ B hxlt hB _).mpr ⟨w, hv⟩⟩
      · rintro ⟨v, hv⟩
        obtain ⟨w, hw⟩ := (elim_region S _ B hxlt hB _).mp hv
        rw [← hkey z v w] at hw
        exact ⟨w, (elim_region S _ A hylt hA _).mpr ⟨v, hw⟩⟩
    have hperm2 : ((y :: x :: l) ++ done).Perm (l ++ ((done ++ [y]) ++ [x])) :=
      (append_swap_perm y (x :: l) done).trans (append_swap_perm x l (done ++ [y]))
    obtain ⟨TL, hTL⟩ := projectNamed_ok l ((done ++ [y]) ++ [x]) A2 n0
      (by
        rw [hA2n, hAn, hn, List.length_append, List.length_append,
          List.length_singleton, List.length_singleton]
        omega)
      (hperm2.nodup hnd0)
      (fun r hr => hts r (List.mem_cons_of_mem y (List.mem_cons_of_mem x hr)))
      (by
        intro d hd
        rcases List.mem_append.mp hd with h2 | h2
        · rcases List.mem_append.mp h2 with h3 | h3
          · exact hdone d h3
          · rw [List.mem_singleton.mp h3]
            exact hyn
        · rw [List.mem_singleton.mp h2]
          exact hxn)
    have hdperm : ((done ++ [y]) ++ [x]).Perm ((done ++ [x]) ++ [y]) := by
      rw [List.append_assoc, List.append_assoc]
      exact List.Perm.append_left done List.perm_append_comm
    rw [projectNamed_cons S y (x :: l) done, hA]
    simp only [okBind]
    rw [projectNamed_cons A x l (done ++ [y]), hA2]
    simp only [okBind]
    rw [projectNamed_cons S x (y :: l) done, hB]
    simp only [okBind]
    rw [projectNamed_cons B y l (done ++ [x]), hB2]
    simp only [okBind]
    rcases projectNamed_req l ((done ++ [y]) ++ [x]) ((done ++ [x]) ++ [y]) A2 B2
        hdperm hn2 hreg2 with ⟨er, hE1, hE2⟩ | ⟨T1, T2, h1, h2, h3, h4⟩
    · rw [hTL] at hE1
      cases hE1
    · exact ⟨T1, T2, h1, h2, h3, h4⟩
  | trans h12 h23 ih12 ih23 =>
    intro done S n0 hn hnd hts hdone
    obtain ⟨T1, T2, hA, hB, hn12, hreg12⟩ := ih12 done S n0 hn hnd hts hdone
    obtain ⟨T2b, T3, hBb, hC, hn23, hreg23⟩ := ih23 done S n0 hn
      ((h12.append_right done).nodup hnd) (fun r hr => hts r (h12.mem_iff.mpr hr)) hdone
    rw [hB] at hBb
    injection hBb with heq
    subst heq
    exact ⟨T1, T3, hA, hC, hn12.trans hn23, fun x => (hreg12 x).trans (hreg23 x)⟩

/-- C3: for a store and a duplicate-free list of in-range target variables,
`coordinate_projection` succeeds on every permutation of the list and all
permutations yield stores over the same reduced ring representing the same
region: the same set of satisfying assignments over the remaining variables. -/
theorem C3_commutes (S : LinearSystem) (ts ts2 : List ℕ)
    (hperm : ts.Perm ts2) (hnd : ts.Nodup) (hv : ∀ t ∈ ts, t < S.n) :
    ∃ T T2, coordinate_projection S ts = .ok T ∧ coordinate_projection S ts2 = .ok T2 ∧
      T.n = T2.n ∧ ∀ x, satisfies x T ↔ satisfies x T2 := by
  have hnd2 : ts2.Nodup := hperm.nodup hnd
  have hv2 : ∀ t ∈ ts2, t < S.n := fun t ht => hv t (hperm.mem_iff.mpr ht)
  obtain ⟨T, T2, h1, h2, h3, h4⟩ :=
    projectNamed_perm hperm [] S S.n (by simp) (by simpa using hnd) hv (by simp)
  refine ⟨T, T2, ?_, ?_, h3, h4⟩
  · rw [coordinate_projection_eq_named S ts hnd hv]
    exact h1
  · rw [coordinate_projection_eq_named S ts2 hnd2 hv2]
    exact h2

theorem C3_witness :
    ∃ T T2,
      coordinate_projection (⟨2, .cset [], .cset [], .cset []⟩ : LinearSystem) [0, 1] = .ok T ∧
      coordinate_projection (⟨2, .cset [], .cset [], .cset []⟩ : LinearSystem) [1, 0] = .ok T2 ∧
      T.n = T2.n ∧ ∀ x, satisfies x T ↔ satisfies x T2 :=
  C3_commutes ⟨2, .cset [], .cset [], .cset []⟩ [0, 1] [1, 0] (by decide) (by decide) (by decide)

end BSALinear
